import Mathlib

/-!
The red-black tree of libtree, `src/rb-tree.c`.

A shallow embedding of `include/rb-tree.h` and `src/rb-tree.c`.

* Node objects live in a heap, a list indexed by address; a pointer is either
  `NULL` or the address of a node object.  Dereferencing an address that holds
  no node object is undefined behaviour in C and is `none` here.
* `malloc` either fails (`NULL`) or hands out the next unused address; `free`
  appends the address to the list of released addresses.
* A value (`void *` in C) is an element of an arbitrary type `V`; the tree only
  ever passes values to the comparator, which returns a C `int`.
-/

namespace LibTree

/-! ## Data model (`include/rb-tree.h`) -/

/-- The two branches of a node: `enum rb_tree_branch`. -/
inductive RBTreeBranch where
  | RB_LEFT
  | RB_RIGHT
  deriving DecidableEq

/-- The colours of nodes: `enum rb_tree_colour`. -/
inductive RBTreeColour where
  | RB_BLACK
  | RB_RED
  deriving DecidableEq

/-- Success and failure codes: `enum rb_return_code`. -/
inductive RBReturnCode where
  | RB_SUCCESS
  | RB_NOT_ENOUGH_MEMORY
  deriving DecidableEq

/-- A `RBTreeNode *`: `NULL`, or the address of a node object. -/
inductive Ptr where
  | null
  | addr (a : Nat)
  deriving DecidableEq

/-- The node record `struct rb_tree_node`. -/
structure RBTreeNode (V : Type) where
  value : V
  colour : RBTreeColour
  parent : Ptr
  left : Ptr
  right : Ptr
  deriving DecidableEq

/-- The node objects in memory; the object at address `a` is the `a`-th entry. -/
abbrev Heap (V : Type) := List (RBTreeNode V)

/-- A comparator `int (*RBComparator) (void *, void *)`. -/
abbrev RBComparator (V : Type) := V → V → Int

open RBTreeBranch RBTreeColour RBReturnCode

/-! ## Support functions (`src/rb-tree.c`, lines 132-190) -/

/-- The function `opposite` (lines 185-190). -/
def opposite (orientation : RBTreeBranch) : RBTreeBranch :=
  if orientation = RB_LEFT then RB_RIGHT else RB_LEFT

/-- The function `getChild` (lines 176-183): `NULL` for a `NULL` node, otherwise
the link on the given branch. -/
def getChild {V : Type} (h : Heap V) (node : Ptr) (branch : RBTreeBranch) : Option Ptr :=
  match node with
  | .null => some .null
  | .addr a =>
    match h[a]? with
    | none => none
    | some n => if branch = RB_LEFT then some n.left else some n.right

/-- The function `setChild` (lines 154-174): returns the heap after the call and
the returned pointer.  When `node` or `child` is `NULL` nothing is written and
`NULL` is returned; otherwise the link on `branch` is overwritten with `child`
and its previous content is returned. -/
def setChild {V : Type} (h : Heap V) (node child : Ptr) (branch : RBTreeBranch) :
    Option (Heap V × Ptr) :=
  match node, child with
  | .null, _ => some (h, .null)
  | .addr _, .null => some (h, .null)
  | .addr a, .addr c =>
    match h[a]? with
    | none => none
    | some n =>
      if branch = RB_LEFT then
        some (h.set a { n with left := .addr c }, n.left)
      else if branch = RB_RIGHT then
        some (h.set a { n with right := .addr c }, n.right)
      else
        some (h, .null)

/-- The function `rotate` (lines 132-152): returns the heap after the call and
the returned pointer `incomingRoot`. -/
def rotate {V : Type} (h : Heap V) (root : Ptr) (branchToMoveUp : RBTreeBranch) :
    Option (Heap V × Ptr) :=
  let trailing := branchToMoveUp
  let leading := opposite trailing
  match getChild h root trailing with
  | none => none
  | some incomingRoot =>
    match setChild h incomingRoot root leading with
    | none => none
    | some (h1, orphanNode) =>
      match setChild h1 root orphanNode trailing with
      | none => none
      | some (h2, _) => some (h2, incomingRoot)

/-! ## Allocation, creation and insertion (lines 7-130) -/

/-- The call `malloc (sizeof (RBTreeNode))`: `NULL` when the allocator fails,
otherwise the address of a fresh object, the first address not yet in use. -/
def malloc {V : Type} (h : Heap V) (allocOk : Bool) : Ptr :=
  if allocOk then .addr h.length else .null

/-- The function `createTree` (lines 7-16): the return code, the heap after the
call and the content of `*root` after the call.  The compound literal leaves
`parent` zero, that is `NULL`. -/
def createTree {V : Type} (h : Heap V) (value : V) (allocOk : Bool) :
    RBReturnCode × Heap V × Ptr :=
  match malloc h allocOk with
  | .null => (RB_NOT_ENOUGH_MEMORY, h, .null)
  | .addr a =>
    (RB_SUCCESS,
      h ++ [{ value := value, colour := RB_BLACK, parent := .null, left := .null,
              right := .null }],
      .addr a)

/-- The function `findInsertionPoint` (lines 84-130): the contents of `*parent`
and `*branch` after the call; `*branch` is `none` when the function never wrote
it.  Each path through the loop body leaves the loop (`return` at line 100,
`break` at lines 110 and 120), so the body runs at most once, on `root`; the
value assigned to `currentNode` at lines 109 and 119 is never read. -/
def findInsertionPoint {V : Type} (h : Heap V) (root : Ptr) (value : V)
    (comparator : RBComparator V) : Option (Ptr × Option RBTreeBranch) :=
  match root with
  | .null => some (.null, none)
  | .addr a =>
    match h[a]? with
    | none => none
    | some currentNode =>
      let comparison := comparator value currentNode.value
      if comparison = 0 then
        some (.null, none)
      else if comparison > 0 then
        some (.addr a, some RB_RIGHT)
      else
        some (.addr a, some RB_LEFT)

/-- What a call of `add` leaves behind: the return code, the heap, the content
of `*createdNewNode`, and (as a record of the execution) the number of calls of
`malloc` it made. -/
structure AddResult (V : Type) where
  code : RBReturnCode
  heap : Heap V
  createdNewNode : Bool
  mallocCalls : Nat
  deriving DecidableEq

/-- The link `attachmentPoint` designates, `&(parent->left)` or
`&(parent->right)`, read in a node record. -/
def RBTreeNode.link {V : Type} (n : RBTreeNode V) (branch : RBTreeBranch) : Ptr :=
  match branch with
  | RB_LEFT => n.left
  | RB_RIGHT => n.right

/-- The node record after a write through `attachmentPoint`. -/
def RBTreeNode.setLink {V : Type} (n : RBTreeNode V) (branch : RBTreeBranch) (p : Ptr) :
    RBTreeNode V :=
  match branch with
  | RB_LEFT => { n with left := p }
  | RB_RIGHT => { n with right := p }

/-- The function `add` (lines 34-82).  A `NULL` root fails the assertion of
line 37 (`none`).  At line 63 the result of `malloc` is stored in the link
itself, whatever it is; the new node object is written at line 76 only after a
successful allocation. -/
def add {V : Type} (h : Heap V) (root : Ptr) (value : V) (comparator : RBComparator V)
    (allocOk : Bool) : Option (AddResult V) :=
  match root with
  | .null => none
  | .addr _ =>
    match findInsertionPoint h root value comparator with
    | none => none
    | some (.null, _) => some ⟨RB_SUCCESS, h, false, 0⟩
    | some (.addr _, none) => none
    | some (.addr p, some branch) =>
      match h[p]? with
      | none => none
      | some parent =>
        match parent.link branch with
        | .addr _ => some ⟨RB_SUCCESS, h, false, 0⟩
        | .null =>
          let fresh := malloc h allocOk
          let h1 := h.set p (parent.setLink branch fresh)
          match fresh with
          | .null => some ⟨RB_NOT_ENOUGH_MEMORY, h1, false, 1⟩
          | .addr _ =>
            some ⟨RB_SUCCESS,
              h1 ++ [{ value := value, colour := RB_RED, parent := .null, left := .null,
                       right := .null }],
              true, 1⟩

/-! ## Observations used by the specification -/

/-- The in-order value sequence of the structure hanging from `p`, read by a
traversal that descends at most `fuel` links; `none` when the traversal does
not finish within `fuel` (a structure that is too deep, or not a tree) or
meets an address with no node object. -/
def inorder {V : Type} : Nat → Heap V → Ptr → Option (List V)
  | _, _, .null => some []
  | 0, _, .addr _ => none
  | fuel + 1, h, .addr a =>
    match h[a]? with
    | none => none
    | some n =>
      match inorder fuel h n.left with
      | none => none
      | some l =>
        match inorder fuel h n.right with
        | none => none
        | some r => some (l ++ [n.value] ++ r)

/-- The comparator `compareChars` of the tests (lines 68-74): `*l - *r`. -/
def compareChars : RBComparator Char :=
  fun l r => (l.toNat : Int) - (r.toNat : Int)

/-- A node of the test fixtures: a static object, so `parent` is `NULL`. -/
def mkNode {V : Type} (value : V) (colour : RBTreeColour) (left right : Ptr) : RBTreeNode V :=
  { value := value, colour := colour, parent := .null, left := left, right := right }

/-- The seven-node tree of `setupAlphabeticalOrdering` (test lines 40-56); the
nodes `a` … `g` are the objects at addresses `0` … `6`. -/
def alphabeticalOrdering : Heap Char :=
  [ mkNode 'a' RB_BLACK .null .null,
    mkNode 'b' RB_RED (.addr 0) (.addr 2),
    mkNode 'c' RB_BLACK .null .null,
    mkNode 'd' RB_BLACK (.addr 1) (.addr 5),
    mkNode 'e' RB_BLACK .null .null,
    mkNode 'f' RB_RED (.addr 4) (.addr 6),
    mkNode 'g' RB_BLACK .null .null ]

/-- A root `d` whose only child is a leaf `b` on the left: `d` is at address
`0`, `b` at address `1`. -/
def twoNodes : Heap Char :=
  [ mkNode 'd' RB_BLACK (.addr 1) .null,
    mkNode 'b' RB_RED .null .null ]

/-- The loop of the test `add_complex` (test lines 183-188): `add` is called on
one and the same root for each value in turn, each call with its own allocator
answer; returns the final heap and, per call, the return code and the content
of `*createdNewNode`. -/
def addAll {V : Type} (comparator : RBComparator V) (root : Ptr) :
    Heap V → List (V × Bool) → Option (Heap V × List (RBReturnCode × Bool))
  | h, [] => some (h, [])
  | h, (value, allocOk) :: rest =>
    match add h root value comparator allocOk with
    | none => none
    | some r =>
      match addAll comparator root r.heap rest with
      | none => none
      | some (hf, results) => some (hf, (r.code, r.createdNewNode) :: results)

/-- The scenario of the test `add_complex` (test lines 169-195) with every
allocation succeeding: `createTree` of `d` in an empty heap, then `add` of
`b`, `f`, `a`, `c`, `e`, `g` in that order with `compareChars`. -/
def addComplex : Option (Heap Char × List (RBReturnCode × Bool)) :=
  addAll compareChars (createTree [] 'd' true).2.2 (createTree [] 'd' true).2.1
    [('b', true), ('f', true), ('a', true), ('c', true), ('e', true), ('g', true)]

/-- The trees of the public API with one comparator: what `createTree` outputs
after a successful allocation, and what any further call of `add` on that root
leaves behind, whatever the value and the allocator answer. -/
inductive Built {V : Type} (comparator : RBComparator V) : Heap V → Ptr → Prop where
  | create (h0 : Heap V) (value : V) :
      Built comparator (createTree h0 value true).2.1 (createTree h0 value true).2.2
  | add {h : Heap V} {root : Ptr} (value : V) (allocOk : Bool) (r : AddResult V) :
      Built comparator h root → add h root value comparator allocOk = some r →
      Built comparator r.heap root

/-- The nodes of the tree hanging from `root`: the root and whatever is reached
from a node of the tree through a left or right link. -/
inductive Reach {V : Type} (h : Heap V) (root : Ptr) : Nat → Prop where
  | root (a : Nat) : root = .addr a → Reach h root a
  | left (a c : Nat) (n : RBTreeNode V) :
      Reach h root a → h[a]? = some n → n.left = .addr c → Reach h root c
  | right (a c : Nat) (n : RBTreeNode V) :
      Reach h root a → h[a]? = some n → n.right = .addr c → Reach h root c

/-- A link that is `NULL`, or leads to a node other than `r` that is coloured
`RB_RED`, has `NULL` left and right links and holds a value satisfying `P`. -/
def RedLeafLink {V : Type} (h : Heap V) (r : Nat) (P : V → Prop) (p : Ptr) : Prop :=
  ∀ c, p = .addr c →
    c ≠ r ∧ ∃ m, h[c]? = some m ∧ m.colour = RB_RED ∧ m.left = .null ∧ m.right = .null ∧
      P m.value

/-- The shape `add` maintains: a `RB_BLACK` root whose left link is `NULL` or
leads to a red leaf comparing below the root, and whose right link is `NULL` or
leads to a red leaf comparing above the root. -/
def Shallow {V : Type} (comparator : RBComparator V) (h : Heap V) (root : Ptr) : Prop :=
  ∃ r n, root = .addr r ∧ h[r]? = some n ∧ n.colour = RB_BLACK ∧
    RedLeafLink h r (fun v => comparator v n.value < 0) n.left ∧
    RedLeafLink h r (fun v => comparator v n.value > 0) n.right

/-- The function `findInsertionPoint` (lines 84-130) with its calls of the
comparator recorded: the contents of `*parent` and `*branch` after the call as
in `findInsertionPoint`, and the argument pairs of the calls of `comparator`
(line 93), in the order they were made. -/
def findInsertionPointCalls {V : Type} (h : Heap V) (root : Ptr) (value : V)
    (comparator : RBComparator V) : Option (Ptr × Option RBTreeBranch × List (V × V)) :=
  match root with
  | .null => some (.null, none, [])
  | .addr a =>
    match h[a]? with
    | none => none
    | some currentNode =>
      let comparison := comparator value currentNode.value
      if comparison = 0 then
        some (.null, none, [(value, currentNode.value)])
      else if comparison > 0 then
        some (.addr a, some RB_RIGHT, [(value, currentNode.value)])
      else
        some (.addr a, some RB_LEFT, [(value, currentNode.value)])

/-- The trees of the public API, each call of `add` free to use a comparator
of its own: what `createTree` outputs after a successful allocation, and what
any further call of `add` on that root leaves behind, whatever the value, the
comparator and the allocator answer. -/
inductive Grown {V : Type} : Heap V → Ptr → Prop where
  | create (h0 : Heap V) (value : V) :
      Grown (createTree h0 value true).2.1 (createTree h0 value true).2.2
  | add {h : Heap V} {root : Ptr} (value : V) (comparator : RBComparator V) (allocOk : Bool)
      (r : AddResult V) :
      Grown h root → add h root value comparator allocOk = some r → Grown r.heap root

/-- A link that is `NULL`, or leads to a node other than `r` that is coloured
`RB_RED` and has `NULL` parent, left and right links. -/
def LeafLink {V : Type} (h : Heap V) (r : Nat) (p : Ptr) : Prop :=
  ∀ c, p = .addr c →
    c ≠ r ∧ ∃ m, h[c]? = some m ∧ m.colour = RB_RED ∧ m.parent = .null ∧ m.left = .null ∧
      m.right = .null

/-- A `RB_BLACK` root with a `NULL` parent link, each of whose two links is
`NULL` or leads to a red leaf. -/
def Flat {V : Type} (h : Heap V) (root : Ptr) : Prop :=
  ∃ r n, root = .addr r ∧ h[r]? = some n ∧ n.colour = RB_BLACK ∧ n.parent = .null ∧
    LeafLink h r n.left ∧ LeafLink h r n.right

/-- The function `freeTree` (lines 18-32).  The state is the list of the
addresses handed to `free` so far, in order; a node object is live as long as
its address is not in that list.  The function reads `root->left`, recurses,
reads `root->right`, recurses, and only then calls `free (root)`; reading or
freeing an object that is no longer live is undefined behaviour (`none`), as
is running out of `fuel` (the depth of the recursion).  The assignment of
line 31 changes a local variable only. -/
def freeTree {V : Type} : Nat → Heap V → List Nat → Ptr → Option (List Nat)
  | _, _, freed, .null => some freed
  | 0, _, _, .addr _ => none
  | fuel + 1, h, freed, .addr a =>
    if a ∈ freed then none
    else
      match h[a]? with
      | none => none
      | some root =>
        match freeTree fuel h freed root.left with
        | none => none
        | some freed1 =>
          if a ∈ freed1 then none
          else
            match freeTree fuel h freed1 root.right with
            | none => none
            | some freed2 => if a ∈ freed2 then none else some (freed2 ++ [a])

/-- The shape of a finite binary tree, with the address of each node. -/
inductive TreeShape where
  | leaf
  | node (l : TreeShape) (a : Nat) (r : TreeShape)

/-- The addresses of a shape, each subtree before its root, left before
right. -/
def TreeShape.postorder : TreeShape → List Nat
  | .leaf => []
  | .node l a r => l.postorder ++ r.postorder ++ [a]

/-- The number of nodes on the longest path from the root down. -/
def TreeShape.height : TreeShape → Nat
  | .leaf => 0
  | .node l _ r => max l.height r.height + 1

/-- The structure hanging from `p` in the heap has the shape `t`: a `NULL`
pointer for a leaf, and for a node the address of a node object whose left and
right links lead to the two subtrees. -/
def HasShape {V : Type} (h : Heap V) : Ptr → TreeShape → Prop
  | p, .leaf => p = .null
  | p, .node l a r =>
    p = .addr a ∧ ∃ n, h[a]? = some n ∧ HasShape h n.left l ∧ HasShape h n.right r

/-- The heap with every value payload replaced through `g`; links, colours and
addresses stay. -/
def mapValues {V W : Type} (g : V → W) (h : Heap V) : Heap W :=
  h.map fun n =>
    { value := g n.value, colour := n.colour, parent := n.parent, left := n.left,
      right := n.right }

/-! ## Heap and record lemmas -/

/-- Writing back the node object an address already holds changes nothing. -/
theorem set_same {V : Type} (h : Heap V) (a : Nat) (n : RBTreeNode V) (hn : h[a]? = some n) :
    h.set a n = h := by
  apply List.ext_getElem?
  intro i
  rw [List.getElem?_set]
  split
  · next hi => subst hi; simp [hn, (List.getElem?_eq_some.mp hn).1]
  · rfl

theorem setLink_link {V : Type} (n : RBTreeNode V) (s : RBTreeBranch) :
    n.setLink s (n.link s) = n := by
  cases s <;> rfl

theorem link_setLink {V : Type} (n : RBTreeNode V) (s : RBTreeBranch) (p : Ptr) :
    (n.setLink s p).link s = p := by
  cases s <;> rfl

theorem value_setLink {V : Type} (n : RBTreeNode V) (s : RBTreeBranch) (p : Ptr) :
    (n.setLink s p).value = n.value := by
  cases s <;> rfl

theorem colour_setLink {V : Type} (n : RBTreeNode V) (s : RBTreeBranch) (p : Ptr) :
    (n.setLink s p).colour = n.colour := by
  cases s <;> rfl

theorem link_setLink_opposite {V : Type} (n : RBTreeNode V) (s : RBTreeBranch) (p : Ptr) :
    (n.setLink (opposite s) p).link s = n.link s := by
  cases s <;> rfl

theorem link_opposite_setLink {V : Type} (n : RBTreeNode V) (s : RBTreeBranch) (p : Ptr) :
    (n.setLink s p).link (opposite s) = n.link (opposite s) := by
  cases s <;> rfl

theorem setLink_setLink {V : Type} (n : RBTreeNode V) (s : RBTreeBranch) (p q : Ptr) :
    (n.setLink s p).setLink s q = n.setLink s q := by
  cases s <;> rfl

theorem opposite_opposite (s : RBTreeBranch) : opposite (opposite s) = s := by
  cases s <;> rfl


/-- A write through one link leaves the other link as it was. -/
theorem link_of_ne {V : Type} (n : RBTreeNode V) (s b : RBTreeBranch) (p : Ptr) (hb : b ≠ s) :
    (n.setLink s p).link b = n.link b := by
  cases s <;> cases b <;> first | rfl | exact absurd rfl hb

theorem parent_setLink {V : Type} (n : RBTreeNode V) (s : RBTreeBranch) (p : Ptr) :
    (n.setLink s p).parent = n.parent := by
  cases s <;> rfl

theorem opposite_ne (s : RBTreeBranch) : opposite s ≠ s := by
  cases s <;> decide


theorem getElem?_set_append {V : Type} (h : Heap V) (a : Nat) (m x : RBTreeNode V)
    (ha : a < h.length) : (h.set a m ++ [x])[a]? = some m := by
  rw [List.getElem?_append_left (by simpa using ha)]
  simp [ha]

theorem getElem?_set_append_ne {V : Type} (h : Heap V) (a c : Nat) (m x y : RBTreeNode V)
    (hc : h[c]? = some y) (hne : c ≠ a) : (h.set a m ++ [x])[c]? = some y := by
  have hlt : c < h.length := (List.getElem?_eq_some.mp hc).1
  rw [List.getElem?_append_left (by simpa using hlt), List.getElem?_set_ne (Ne.symm hne), hc]

theorem getElem?_set_append_length {V : Type} (h : Heap V) (a : Nat) (m x : RBTreeNode V) :
    (h.set a m ++ [x])[h.length]? = some x := by
  simp

/-! ## Rotation -/

/-- A node one of whose links leads to a structure with no finite in-order
sequence has none itself. -/
theorem inorder_none_of_link {V : Type} (h : Heap V) (a : Nat) (n : RBTreeNode V)
    (s : RBTreeBranch) (fuel : Nat) (hn : h[a]? = some n)
    (hs : inorder fuel h (n.link s) = none) : inorder (fuel + 1) h (.addr a) = none := by
  cases s with
  | RB_LEFT =>
    simp only [RBTreeNode.link] at hs
    simp [inorder, hn, hs]
  | RB_RIGHT =>
    simp only [RBTreeNode.link] at hs
    simp only [inorder, hn]
    cases inorder fuel h n.left <;> simp [hs]

/-- Two nodes that link to each other have no finite in-order sequence,
whatever the fuel. -/
theorem inorder_none_of_cycle {V : Type} (h : Heap V) (r p : Nat) (nr np : RBTreeNode V)
    (s t : RBTreeBranch) (hr : h[r]? = some nr) (hp : h[p]? = some np)
    (hrp : nr.link s = .addr p) (hpr : np.link t = .addr r) (fuel : Nat) :
    inorder fuel h (.addr r) = none ∧ inorder fuel h (.addr p) = none := by
  induction fuel with
  | zero => exact ⟨rfl, rfl⟩
  | succ k ih =>
    constructor
    · exact inorder_none_of_link h r nr s k hr (by rw [hrp]; exact ih.2)
    · exact inorder_none_of_link h p np t k hp (by rw [hpr]; exact ih.1)

/-- The function `getChild` on an address that holds a node object. -/
theorem getChild_eq {V : Type} (h : Heap V) (a : Nat) (n : RBTreeNode V) (s : RBTreeBranch)
    (hn : h[a]? = some n) : getChild h (.addr a) s = some (n.link s) := by
  cases s <;> simp [getChild, hn, RBTreeNode.link]

/-- The function `setChild` on two non-`NULL` arguments. -/
theorem setChild_eq {V : Type} (h : Heap V) (a c : Nat) (n : RBTreeNode V) (s : RBTreeBranch)
    (hn : h[a]? = some n) :
    setChild h (.addr a) (.addr c) s = some (h.set a (n.setLink s (.addr c)), n.link s) := by
  cases s <;> simp [setChild, hn, RBTreeNode.link, RBTreeNode.setLink]

/-- The function `setChild` with a `NULL` child writes nothing. -/
theorem setChild_null {V : Type} (h : Heap V) (node : Ptr) (s : RBTreeBranch) :
    setChild h node .null s = some (h, .null) := by
  cases node <;> rfl

/-- What `rotate` computes when the promoted child `p` has a child `o` on the
opposite branch. -/
theorem rotate_eq {V : Type} (h : Heap V) (r p o : Nat) (nr np : RBTreeNode V)
    (s : RBTreeBranch) (hr : h[r]? = some nr) (hp : h[p]? = some np) (hrp : r ≠ p)
    (hlink : nr.link s = .addr p) (horphan : np.link (opposite s) = .addr o) :
    rotate h (.addr r) s =
      some ((h.set p (np.setLink (opposite s) (.addr r))).set r (nr.setLink s (.addr o)),
        .addr p) := by
  have h1 : (h.set p (np.setLink (opposite s) (.addr r)))[r]? = some nr := by
    rw [List.getElem?_set_ne (Ne.symm hrp), hr]
  simp only [rotate, getChild_eq h r nr s hr, hlink,
    setChild_eq h p r np (opposite s) hp, horphan, setChild_eq _ r o nr s h1]

/-- What `rotate` computes when the promoted child `p` has no child on the
opposite branch: the second `setChild` writes nothing. -/
theorem rotate_eq_null {V : Type} (h : Heap V) (r p : Nat) (nr np : RBTreeNode V)
    (s : RBTreeBranch) (hr : h[r]? = some nr) (hp : h[p]? = some np)
    (hlink : nr.link s = .addr p) (horphan : np.link (opposite s) = .null) :
    rotate h (.addr r) s = some (h.set p (np.setLink (opposite s) (.addr r)), .addr p) := by
  simp only [rotate, getChild_eq h r nr s hr, hlink,
    setChild_eq h p r np (opposite s) hp, horphan, setChild_null]

/-- Rotation shape when the promoted child has a child on the opposite
branch: `rotate` returns the promoted child `p`, afterwards the link of `p` on
the opposite branch leads to the old root and the link of the old root on the
promoted branch leads to the former inner child `o` of `p`. -/
theorem rotate_shape {V : Type} (h : Heap V) (r p o : Nat) (nr np : RBTreeNode V)
    (s : RBTreeBranch) (hr : h[r]? = some nr) (hp : h[p]? = some np) (hrp : r ≠ p)
    (hlink : nr.link s = .addr p) (horphan : np.link (opposite s) = .addr o) :
    ∃ h2, rotate h (.addr r) s = some (h2, .addr p) ∧
      getChild h2 (.addr p) (opposite s) = some (.addr r) ∧
      getChild h2 (.addr r) s = some (.addr o) := by
  have hrl : r < h.length := (List.getElem?_eq_some.mp hr).1
  have hpl : p < h.length := (List.getElem?_eq_some.mp hp).1
  refine ⟨_, rotate_eq h r p o nr np s hr hp hrp hlink horphan, ?_, ?_⟩
  · rw [getChild_eq _ p (np.setLink (opposite s) (.addr r)) _
      (by rw [List.getElem?_set_ne hrp]; simp [hpl]), link_setLink]
  · rw [getChild_eq _ r (nr.setLink s (.addr o)) _ (by simp [hrl]), link_setLink]

/-- Rotation round trip when the promoted child has a child on the opposite
branch: rotating back with the opposite branch returns the old root and
restores the heap, every link of every node object. -/
theorem rotate_round_trip {V : Type} (h : Heap V) (r p o : Nat) (nr np : RBTreeNode V)
    (s : RBTreeBranch) (hr : h[r]? = some nr) (hp : h[p]? = some np) (hrp : r ≠ p)
    (hlink : nr.link s = .addr p) (horphan : np.link (opposite s) = .addr o) :
    ∃ h2, rotate h (.addr r) s = some (h2, .addr p) ∧
      rotate h2 (.addr p) (opposite s) = some (h, .addr r) := by
  have hrl : r < h.length := (List.getElem?_eq_some.mp hr).1
  have hpl : p < h.length := (List.getElem?_eq_some.mp hp).1
  refine ⟨_, rotate_eq h r p o nr np s hr hp hrp hlink horphan, ?_⟩
  have hp2 : ((h.set p (np.setLink (opposite s) (.addr r))).set r (nr.setLink s (.addr o)))[p]? =
      some (np.setLink (opposite s) (.addr r)) := by
    rw [List.getElem?_set_ne hrp]; simp [hpl]
  have hr2 : ((h.set p (np.setLink (opposite s) (.addr r))).set r (nr.setLink s (.addr o)))[r]? =
      some (nr.setLink s (.addr o)) := by
    simp [hrl]
  rw [rotate_eq _ p r o _ _ (opposite s) hp2 hr2 (Ne.symm hrp) (link_setLink _ _ _)
    (by rw [opposite_opposite, link_setLink])]
  congr 2
  rw [opposite_opposite, setLink_setLink, setLink_setLink, ← hlink, ← horphan, setLink_link,
    setLink_link]
  apply List.ext_getElem?
  intro i
  by_cases hip : i = p
  · subst hip; simp [hp, hpl]
  · by_cases hir : i = r
    · subst hir
      rw [List.getElem?_set_ne (Ne.symm hip)]
      simp [hr, hrl]
    · rw [List.getElem?_set_ne (Ne.symm hip), List.getElem?_set_ne (Ne.symm hir),
        List.getElem?_set_ne (Ne.symm hir), List.getElem?_set_ne (Ne.symm hip)]

/-- What is reached from a link of a node is reached from the node. -/
theorem reach_of_link {V : Type} (h : Heap V) (a : Nat) (n : RBTreeNode V) (s : RBTreeBranch)
    (hn : h[a]? = some n) (c : Nat) (hc : Reach h (n.link s) c) : Reach h (.addr a) c := by
  induction hc with
  | root c hc =>
    cases s with
    | RB_LEFT => exact Reach.left a c n (Reach.root a rfl) hn hc
    | RB_RIGHT => exact Reach.right a c n (Reach.root a rfl) hn hc
  | left x c m _ hm hmc ih => exact Reach.left x c m ih hm hmc
  | right x c m _ hm hmc ih => exact Reach.right x c m ih hm hmc

/-- The in-order sequence of a node, one level of the traversal unfolded. -/
theorem inorder_succ_some {V : Type} (h : Heap V) (a : Nat) (fuel : Nat) (S : List V) :
    inorder (fuel + 1) h (.addr a) = some S ↔
      ∃ n l r, h[a]? = some n ∧ inorder fuel h n.left = some l ∧
        inorder fuel h n.right = some r ∧ S = l ++ [n.value] ++ r := by
  simp only [inorder]
  cases hn : h[a]? with
  | none => simp
  | some n =>
    cases hl : inorder fuel h n.left with
    | none => simp [hl]
    | some l =>
      cases hr : inorder fuel h n.right with
      | none => simp [hl, hr]
      | some r =>
        simp only [hl, hr, Option.some.injEq]
        constructor
        · intro hS; exact ⟨n, l, r, rfl, hl, hr, hS.symm⟩
        · rintro ⟨n2, l2, r2, hn2, hl2, hr2, hS⟩
          cases hn2
          rw [hl] at hl2; rw [hr] at hr2
          cases hl2; cases hr2
          exact hS.symm

/-- A traversal that finishes still finishes, with the same sequence, on more
fuel. -/
theorem inorder_mono {V : Type} (h : Heap V) (fuel : Nat) :
    ∀ (q : Ptr) (S : List V), inorder fuel h q = some S → inorder (fuel + 1) h q = some S := by
  induction fuel with
  | zero =>
    intro q S hS
    cases q with
    | null => simpa [inorder] using hS
    | addr a => simp [inorder] at hS
  | succ k ih =>
    intro q S hS
    cases q with
    | null => simpa [inorder] using hS
    | addr a =>
      obtain ⟨n, l, r, hn, hl, hr, rfl⟩ := (inorder_succ_some h a k S).mp hS
      exact (inorder_succ_some h a (k + 1) _).mpr ⟨n, l, r, hn, ih _ _ hl, ih _ _ hr, rfl⟩

/-- The in-order sequence read from `q` only depends on the node objects
reached from `q`. -/
theorem inorder_frame {V : Type} (h h2 : Heap V) (fuel : Nat) :
    ∀ q : Ptr, (∀ a, Reach h q a → h2[a]? = h[a]?) →
      inorder fuel h2 q = inorder fuel h q := by
  induction fuel with
  | zero =>
    intro q _
    cases q <;> rfl
  | succ k ih =>
    intro q hq
    cases q with
    | null => rfl
    | addr a =>
      have ha := hq a (Reach.root a rfl)
      simp only [inorder, ha]
      cases hn : h[a]? with
      | none => rfl
      | some n =>
        simp only
        rw [ih n.left (fun c hc => hq c (reach_of_link h a n RB_LEFT hn c hc)),
          ih n.right (fun c hc => hq c (reach_of_link h a n RB_RIGHT hn c hc))]

/-- Two writes leave every other address as it was. -/
theorem getElem?_set_set_ne {V : Type} (h : Heap V) (r p a : Nat) (x y : RBTreeNode V)
    (har : a ≠ r) (hap : a ≠ p) : ((h.set p x).set r y)[a]? = h[a]? := by
  rw [List.getElem?_set_ne (Ne.symm har), List.getElem?_set_ne (Ne.symm hap)]

/-- In-order preservation when the promoted child `p` has a child `o` on the
opposite branch and the three subtrees hanging below `r` and `p` contain
neither `r` nor `p` (as in every tree): the structure `rotate` returns has the
in-order sequence the structure had before the call. -/
theorem rotate_inorder {V : Type} (h : Heap V) (r p o : Nat) (nr np : RBTreeNode V)
    (s : RBTreeBranch) (hr : h[r]? = some nr) (hp : h[p]? = some np) (hrp : r ≠ p)
    (hlink : nr.link s = .addr p) (horphan : np.link (opposite s) = .addr o)
    (hA : ∀ a, Reach h (np.link s) a → a ≠ r ∧ a ≠ p)
    (hO : ∀ a, Reach h (.addr o) a → a ≠ r ∧ a ≠ p)
    (hC : ∀ a, Reach h (nr.link (opposite s)) a → a ≠ r ∧ a ≠ p)
    (fuel : Nat) (S : List V) (hin : inorder fuel h (.addr r) = some S) :
    ∃ h2, rotate h (.addr r) s = some (h2, .addr p) ∧
      inorder (fuel + 1) h2 (.addr p) = some S := by
  have hrl : r < h.length := (List.getElem?_eq_some.mp hr).1
  have hpl : p < h.length := (List.getElem?_eq_some.mp hp).1
  refine ⟨_, rotate_eq h r p o nr np s hr hp hrp hlink horphan, ?_⟩
  have hp2 : ((h.set p (np.setLink (opposite s) (.addr r))).set r (nr.setLink s (.addr o)))[p]? =
      some (np.setLink (opposite s) (.addr r)) := by
    rw [List.getElem?_set_ne hrp]; simp [hpl]
  have hr2 : ((h.set p (np.setLink (opposite s) (.addr r))).set r (nr.setLink s (.addr o)))[r]? =
      some (nr.setLink s (.addr o)) := by
    simp [hrl]
  have frame : ∀ (q : Ptr) (k : Nat), (∀ a, Reach h q a → a ≠ r ∧ a ≠ p) →
      inorder k ((h.set p (np.setLink (opposite s) (.addr r))).set r (nr.setLink s (.addr o))) q
        = inorder k h q := fun q k hq =>
    inorder_frame h _ k q (fun a ha => getElem?_set_set_ne h r p a _ _ (hq a ha).1 (hq a ha).2)
  cases fuel with
  | zero => simp [inorder] at hin
  | succ f1 =>
    obtain ⟨n1, l1, r1, hn1, hl1, hr1, rfl⟩ := (inorder_succ_some h r f1 S).mp hin
    rw [hr] at hn1; cases hn1
    cases f1 with
    | zero =>
      cases s with
      | RB_LEFT =>
        simp only [RBTreeNode.link] at hlink
        rw [hlink] at hl1; simp [inorder] at hl1
      | RB_RIGHT =>
        simp only [RBTreeNode.link] at hlink
        rw [hlink] at hr1; simp [inorder] at hr1
    | succ f =>
      cases s with
      | RB_LEFT =>
        simp only [RBTreeNode.link, opposite, if_true] at hlink horphan hA hC
        rw [hlink] at hl1
        obtain ⟨n2, l2, r2, hn2, hl2, hr2', rfl⟩ := (inorder_succ_some h p f _).mp hl1
        rw [hp] at hn2; cases hn2
        rw [horphan] at hr2'
        refine (inorder_succ_some _ p (f + 2) _).mpr
          ⟨_, l2, r2 ++ [nr.value] ++ r1, hp2, ?_, ?_, by simp [RBTreeNode.setLink, opposite]⟩
        · show inorder (f + 2) _ np.left = some l2
          rw [frame _ _ hA]
          exact inorder_mono h _ _ _ (inorder_mono h _ _ _ hl2)
        · show inorder (f + 2) _ (.addr r) = some _
          refine (inorder_succ_some _ r (f + 1) _).mpr
            ⟨_, r2, r1, hr2, ?_, ?_, by simp [RBTreeNode.setLink]⟩
          · show inorder (f + 1) _ (.addr o) = some r2
            rw [frame _ _ hO]
            exact inorder_mono h _ _ _ hr2'
          · show inorder (f + 1) _ nr.right = some r1
            rw [frame _ _ hC]
            exact hr1
      | RB_RIGHT =>
        simp only [RBTreeNode.link, opposite] at hlink horphan hA hC
        simp only [reduceCtorEq, if_false] at horphan hC
        rw [hlink] at hr1
        obtain ⟨n2, l2, r2, hn2, hl2', hr2', rfl⟩ := (inorder_succ_some h p f _).mp hr1
        rw [hp] at hn2; cases hn2
        rw [horphan] at hl2'
        refine (inorder_succ_some _ p (f + 2) _).mpr
          ⟨_, l1 ++ [nr.value] ++ l2, r2, hp2, ?_, ?_, by simp [RBTreeNode.setLink, opposite]⟩
        · show inorder (f + 2) _ (.addr r) = some _
          refine (inorder_succ_some _ r (f + 1) _).mpr
            ⟨_, l1, l2, hr2, ?_, ?_, by simp [RBTreeNode.setLink]⟩
          · show inorder (f + 1) _ nr.left = some l1
            rw [frame _ _ hC]
            exact hl1
          · show inorder (f + 1) _ (.addr o) = some l2
            rw [frame _ _ hO]
            exact inorder_mono h _ _ _ hl2'
        · show inorder (f + 2) _ np.right = some r2
          rw [frame _ _ hA]
          exact inorder_mono h _ _ _ (inorder_mono h _ _ _ hr2')

/-- Every node of the tree hanging from `q` lies in a set of addresses that
contains the target of `q` and is closed under left and right links. -/
theorem reach_closed {V : Type} (h : Heap V) (q : Ptr) (P : Nat → Prop)
    (hroot : ∀ a, q = .addr a → P a)
    (hstep : ∀ a n, P a → h[a]? = some n →
      (∀ c, n.left = .addr c → P c) ∧ (∀ c, n.right = .addr c → P c))
    (a : Nat) (ha : Reach h q a) : P a := by
  induction ha with
  | root a hq => exact hroot a hq
  | left x c n _ hn hc ih => exact (hstep x n ih hn).1 c hc
  | right x c n _ hn hc ih => exact (hstep x n ih hn).2 c hc

/-- The theorem `rotate_inorder` applied to the seven-node tree of the tests,
rotated at `d` with `RB_LEFT`. -/
theorem rotate_inorder_alphabeticalOrdering :
    ∃ h2, rotate alphabeticalOrdering (.addr 3) RB_LEFT = some (h2, .addr 1) ∧
      inorder 4 h2 (.addr 1) = some ['a', 'b', 'c', 'd', 'e', 'f', 'g'] := by
  refine rotate_inorder alphabeticalOrdering 3 1 2 (mkNode 'd' RB_BLACK (.addr 1) (.addr 5))
    (mkNode 'b' RB_RED (.addr 0) (.addr 2)) RB_LEFT rfl rfl (by decide) rfl rfl ?_ ?_ ?_ 3 _
    (by decide)
  · intro a ha
    have h0 : a = 0 := by
      refine reach_closed alphabeticalOrdering _ (fun a => a = 0) ?_ ?_ a ha
      · intro c hc; cases hc; rfl
      · rintro c n rfl hn
        cases hn
        exact ⟨fun c hc => (by cases hc), fun c hc => (by cases hc)⟩
    omega
  · intro a ha
    have h2 : a = 2 := by
      refine reach_closed alphabeticalOrdering _ (fun a => a = 2) ?_ ?_ a ha
      · intro c hc; cases hc; rfl
      · rintro c n rfl hn
        cases hn
        exact ⟨fun c hc => (by cases hc), fun c hc => (by cases hc)⟩
    omega
  · intro a ha
    have h5 : a = 5 ∨ a = 4 ∨ a = 6 := by
      refine reach_closed alphabeticalOrdering _ (fun a => a = 5 ∨ a = 4 ∨ a = 6) ?_ ?_ a ha
      · intro c hc; cases hc; exact Or.inl rfl
      · rintro c n (rfl | rfl | rfl) hn <;> cases hn
        · exact ⟨fun c hc => (by cases hc; exact Or.inr (Or.inl rfl)),
            fun c hc => (by cases hc; exact Or.inr (Or.inr rfl))⟩
        · exact ⟨fun c hc => (by cases hc), fun c hc => (by cases hc)⟩
        · exact ⟨fun c hc => (by cases hc), fun c hc => (by cases hc)⟩
    omega

/-- The theorem `rotate_shape` applied to the seven-node tree of the tests,
rotated at `d` with `RB_RIGHT`. -/
theorem rotate_shape_alphabeticalOrdering :
    ∃ h2, rotate alphabeticalOrdering (.addr 3) RB_RIGHT = some (h2, .addr 5) ∧
      getChild h2 (.addr 5) (opposite RB_RIGHT) = some (.addr 3) ∧
      getChild h2 (.addr 3) RB_RIGHT = some (.addr 4) :=
  rotate_shape alphabeticalOrdering 3 5 4 (mkNode 'd' RB_BLACK (.addr 1) (.addr 5))
    (mkNode 'f' RB_RED (.addr 4) (.addr 6)) RB_RIGHT rfl rfl (by decide) rfl rfl

/-- The theorem `rotate_round_trip` applied to the seven-node tree of the
tests, rotated at `d` with `RB_LEFT` and back. -/
theorem rotate_round_trip_alphabeticalOrdering :
    ∃ h2, rotate alphabeticalOrdering (.addr 3) RB_LEFT = some (h2, .addr 1) ∧
      rotate h2 (.addr 1) (opposite RB_LEFT) = some (alphabeticalOrdering, .addr 3) :=
  rotate_round_trip alphabeticalOrdering 3 1 2 (mkNode 'd' RB_BLACK (.addr 1) (.addr 5))
    (mkNode 'b' RB_RED (.addr 0) (.addr 2)) RB_LEFT rfl rfl (by decide) rfl rfl

/-- The assertions of the tests `rotate_right` and `rotate_left` (test lines
77-122) hold: in the seven-node tree the promoted child has a child on the
opposite branch. -/
theorem rotate_alphabeticalOrdering :
    (∃ h2, rotate alphabeticalOrdering (.addr 3) RB_LEFT = some (h2, .addr 1) ∧
      getChild h2 (.addr 1) RB_RIGHT = some (.addr 3) ∧
      getChild h2 (.addr 1) RB_LEFT = some (.addr 0) ∧
      getChild h2 (.addr 3) RB_LEFT = some (.addr 2) ∧
      getChild h2 (.addr 3) RB_RIGHT = some (.addr 5) ∧
      inorder 4 h2 (.addr 1) = inorder 3 alphabeticalOrdering (.addr 3)) ∧
    (∃ h2, rotate alphabeticalOrdering (.addr 3) RB_RIGHT = some (h2, .addr 5) ∧
      getChild h2 (.addr 5) RB_LEFT = some (.addr 3) ∧
      getChild h2 (.addr 5) RB_RIGHT = some (.addr 6) ∧
      getChild h2 (.addr 3) RB_RIGHT = some (.addr 4) ∧
      getChild h2 (.addr 3) RB_LEFT = some (.addr 1) ∧
      inorder 4 h2 (.addr 5) = inorder 3 alphabeticalOrdering (.addr 3)) := by
  constructor
  · exact ⟨(alphabeticalOrdering.set 1 (mkNode 'b' RB_RED (.addr 0) (.addr 3))).set 3
      (mkNode 'd' RB_BLACK (.addr 2) (.addr 5)), by decide, by decide, by decide, by decide,
      by decide, by decide⟩
  · exact ⟨(alphabeticalOrdering.set 5 (mkNode 'f' RB_RED (.addr 3) (.addr 6))).set 3
      (mkNode 'd' RB_BLACK (.addr 1) (.addr 4)), by decide, by decide, by decide, by decide,
      by decide, by decide⟩

/-- Claim C1, the code at the failing input.  In `twoNodes` the root `d` (address
`0`) has the leaf `b` (address `1`) as its left child, and the in-order
sequence is `b, d`.  `rotate (d, RB_LEFT)` returns `b`, but the structure
hanging from `b` afterwards has no finite in-order sequence at all: no amount
of fuel lets the traversal finish. -/
theorem rotate_twoNodes_inorder_lost :
    inorder 2 twoNodes (.addr 0) = some ['b', 'd'] ∧
    ∃ h1, rotate twoNodes (.addr 0) RB_LEFT = some (h1, .addr 1) ∧
      ∀ fuel, inorder fuel h1 (.addr 1) = none := by
  refine ⟨by decide, [mkNode 'd' RB_BLACK (.addr 1) .null, mkNode 'b' RB_RED .null (.addr 0)],
    by decide, fun fuel => ?_⟩
  exact (inorder_none_of_cycle _ 0 1 (mkNode 'd' RB_BLACK (.addr 1) .null)
    (mkNode 'b' RB_RED .null (.addr 0)) RB_LEFT RB_RIGHT rfl rfl rfl rfl fuel).2

/-- Claim C2, the code at the failing input.  In `twoNodes` the promoted child `b`
has no right child.  `rotate (d, RB_LEFT)` returns `b` and makes `d` the right
child of `b`, but the left child of `d` is still `b` afterwards, not absent. -/
theorem rotate_twoNodes_link_kept :
    getChild twoNodes (.addr 0) RB_LEFT = some (.addr 1) ∧
    getChild twoNodes (.addr 1) (opposite RB_LEFT) = some .null ∧
    ∃ h1, rotate twoNodes (.addr 0) RB_LEFT = some (h1, .addr 1) ∧
      getChild h1 (.addr 1) (opposite RB_LEFT) = some (.addr 0) ∧
      getChild h1 (.addr 0) RB_LEFT = some (.addr 1) := by
  refine ⟨by decide, by decide,
    [mkNode 'd' RB_BLACK (.addr 1) .null, mkNode 'b' RB_RED .null (.addr 0)], ?_, ?_, ?_⟩ <;>
  decide

/-- Claim C3, the code at the failing input.  Rotating `twoNodes` at `d` with
`RB_LEFT` and then the result with `opposite RB_LEFT` does return `d`, but the
links are not restored: the right link of `b`, absent at the start, now leads
from `b` to `b` itself. -/
theorem rotate_twoNodes_round_trip_broken :
    ∃ h1 h2, rotate twoNodes (.addr 0) RB_LEFT = some (h1, .addr 1) ∧
      rotate h1 (.addr 1) (opposite RB_LEFT) = some (h2, .addr 0) ∧
      getChild twoNodes (.addr 1) RB_RIGHT = some .null ∧
      getChild h2 (.addr 1) RB_RIGHT = some (.addr 1) ∧
      h2 ≠ twoNodes := by
  refine ⟨[mkNode 'd' RB_BLACK (.addr 1) .null, mkNode 'b' RB_RED .null (.addr 0)],
    [mkNode 'd' RB_BLACK (.addr 1) .null, mkNode 'b' RB_RED .null (.addr 1)],
    ?_, ?_, ?_, ?_, ?_⟩ <;>
  decide

/-! ## Creation -/

/-- Claim C10.  When the allocation succeeds `createTree` returns `RB_SUCCESS`,
leaves every existing node object as it was, creates exactly one new node
object, at a fresh address, holding the given value, coloured `RB_BLACK`, with
`NULL` left and right links, and outputs its address; when the allocation
fails it returns `RB_NOT_ENOUGH_MEMORY`, creates no node object and outputs
`NULL`. -/
theorem createTree_spec {V : Type} (h : Heap V) (value : V) :
    createTree h value true =
      (RB_SUCCESS,
        h ++ [{ value := value, colour := RB_BLACK, parent := .null, left := .null,
                right := .null }],
        .addr h.length) ∧
    createTree h value false = (RB_NOT_ENOUGH_MEMORY, h, .null) := by
  constructor <;> rfl

/-! ## Insertion -/

/-- What `add` computes on a root that holds a node object: nothing for a
value comparing equal to the root value or when the root link on the side of
the comparison is occupied; otherwise one call of `malloc`, and on success a
red leaf at the fresh address, linked from the root. -/
theorem add_eq {V : Type} (h : Heap V) (a : Nat) (n : RBTreeNode V) (value : V)
    (comparator : RBComparator V) (allocOk : Bool) (hn : h[a]? = some n) :
    add h (.addr a) value comparator allocOk =
      if comparator value n.value = 0 then some ⟨RB_SUCCESS, h, false, 0⟩
      else
        match n.link (if comparator value n.value > 0 then RB_RIGHT else RB_LEFT) with
        | .addr _ => some ⟨RB_SUCCESS, h, false, 0⟩
        | .null =>
          if allocOk then
            some ⟨RB_SUCCESS,
              h.set a (n.setLink (if comparator value n.value > 0 then RB_RIGHT else RB_LEFT)
                  (.addr h.length)) ++
                [{ value := value, colour := RB_RED, parent := .null, left := .null,
                   right := .null }], true, 1⟩
          else some ⟨RB_NOT_ENOUGH_MEMORY, h, false, 1⟩ := by
  by_cases h0 : comparator value n.value = 0
  · simp [add, findInsertionPoint, hn, h0]
  · by_cases h1 : comparator value n.value > 0
    · simp only [add, findInsertionPoint, hn, h0, h1, if_true, if_false]
      cases hl : n.link RB_RIGHT with
      | addr c => simp
      | null =>
        cases allocOk with
        | true => simp [malloc]
        | false =>
          have : n.setLink RB_RIGHT .null = n := by rw [← hl]; exact setLink_link n _
          simp [malloc, this, set_same h a n hn]
    · simp only [add, findInsertionPoint, hn, h0, h1, if_true, if_false]
      cases hl : n.link RB_LEFT with
      | addr c => simp
      | null =>
        cases allocOk with
        | true => simp [malloc]
        | false =>
          have : n.setLink RB_LEFT .null = n := by rw [← hl]; exact setLink_link n _
          simp [malloc, this, set_same h a n hn]

/-- Claim C4, the code at the failing input, the scenario of the test
`add_complex`.  Each of the six calls of `add` returns `RB_SUCCESS`, the node
at address `1` holds `b`, and yet afterwards the right link of `b` is `NULL`
and no node object at all holds a value comparing equal to `c`. -/
theorem addComplex_c_missing :
    ∃ hf results, addComplex = some (hf, results) ∧
      (∀ x ∈ results, x.1 = RB_SUCCESS) ∧
      (∃ b, hf[1]? = some b ∧ b.value = 'b' ∧ b.right = .null) ∧
      ∀ n ∈ hf, compareChars 'c' n.value ≠ 0 := by
  refine ⟨[mkNode 'd' RB_BLACK (.addr 1) (.addr 2), mkNode 'b' RB_RED .null .null,
      mkNode 'f' RB_RED .null .null],
    [(RB_SUCCESS, true), (RB_SUCCESS, true), (RB_SUCCESS, false), (RB_SUCCESS, false),
      (RB_SUCCESS, false), (RB_SUCCESS, false)],
    by decide, by decide, ⟨_, rfl, rfl, rfl⟩, by decide⟩

/-- Claim C5, the code at the failing input, the scenario of the test
`add_complex`.  The heap ends with three node objects, not seven: the black
root `d` with the red leaves `b` on the left and `f` on the right; the calls
for `b` and `f` report a new node, the calls for `a`, `c`, `e` and `g` report
none. -/
theorem addComplex_three_nodes :
    addComplex = some
      ([mkNode 'd' RB_BLACK (.addr 1) (.addr 2), mkNode 'b' RB_RED .null .null,
        mkNode 'f' RB_RED .null .null],
       [(RB_SUCCESS, true), (RB_SUCCESS, true), (RB_SUCCESS, false), (RB_SUCCESS, false),
        (RB_SUCCESS, false), (RB_SUCCESS, false)]) := by
  decide

/-- Claim C8.  If a call of `add` returns `RB_SUCCESS`, a second call on the
resulting heap with the same root, value and comparator returns `RB_SUCCESS`,
sets `*createdNewNode` to false, calls `malloc` not at all and leaves the heap
(every node object: links, values, colours, and their number) as it is,
whatever the allocator would answer. -/
theorem add_idempotent {V : Type} (h : Heap V) (root : Ptr) (value : V)
    (comparator : RBComparator V) (allocOk1 allocOk2 : Bool) (r1 : AddResult V)
    (h1 : add h root value comparator allocOk1 = some r1) (hs : r1.code = RB_SUCCESS) :
    add r1.heap root value comparator allocOk2 = some ⟨RB_SUCCESS, r1.heap, false, 0⟩ := by
  cases root with
  | null => simp [add] at h1
  | addr a =>
    cases hn : h[a]? with
    | none => simp [add, findInsertionPoint, hn] at h1
    | some n =>
      rw [add_eq h a n value comparator allocOk1 hn] at h1
      by_cases h0 : comparator value n.value = 0
      · simp only [h0, if_true, Option.some.injEq] at h1
        subst h1
        rw [add_eq h a n value comparator allocOk2 hn]
        simp [h0]
      · simp only [h0, if_false] at h1
        cases hl : n.link (if comparator value n.value > 0 then RB_RIGHT else RB_LEFT) with
        | addr c =>
          simp only [hl, Option.some.injEq] at h1
          subst h1
          rw [add_eq h a n value comparator allocOk2 hn]
          simp [h0, hl]
        | null =>
          simp only [hl] at h1
          cases allocOk1 with
          | false =>
            simp only [Bool.false_eq_true, if_false, Option.some.injEq] at h1
            subst h1
            simp at hs
          | true =>
            simp only [if_true, Option.some.injEq] at h1
            subst h1
            have ha : a < h.length := (List.getElem?_eq_some.mp hn).1
            have hn2 := getElem?_set_append h a
              (n.setLink (if comparator value n.value > 0 then RB_RIGHT else RB_LEFT)
                (.addr h.length))
              { value := value, colour := RB_RED, parent := .null, left := .null,
                right := .null } ha
            rw [add_eq _ a _ value comparator allocOk2 hn2]
            simp [value_setLink, link_setLink, h0]

/-- Witness of `add_idempotent`: `b` added to the one-node tree `d`, then added
again with an allocator that would fail. -/
theorem add_idempotent_witness :
    add [mkNode 'd' RB_BLACK .null .null] (.addr 0) 'b' compareChars true =
        some ⟨RB_SUCCESS, twoNodes, true, 1⟩ ∧
    add twoNodes (.addr 0) 'b' compareChars false = some ⟨RB_SUCCESS, twoNodes, false, 0⟩ :=
  ⟨by decide,
    add_idempotent [mkNode 'd' RB_BLACK .null .null] (.addr 0) 'b' compareChars true false
      ⟨RB_SUCCESS, twoNodes, true, 1⟩ (by decide) rfl⟩

/-- Claim C9.  On a root that holds a node object `add` returns, and it returns
`RB_NOT_ENOUGH_MEMORY` exactly when it called `malloc` and the allocator
failed; in that case `*createdNewNode` is false, the heap is the heap before
the call, and the link the search designated is still `NULL`. -/
theorem add_out_of_memory {V : Type} (h : Heap V) (a : Nat) (value : V)
    (comparator : RBComparator V) (allocOk : Bool) (ha : a < h.length) :
    ∃ r, add h (.addr a) value comparator allocOk = some r ∧
      (r.code = RB_NOT_ENOUGH_MEMORY ↔ (0 < r.mallocCalls ∧ allocOk = false)) ∧
      (r.code = RB_NOT_ENOUGH_MEMORY →
        r.createdNewNode = false ∧ r.heap = h ∧
        ∃ p branch,
          findInsertionPoint h (.addr a) value comparator = some (.addr p, some branch) ∧
          getChild r.heap (.addr p) branch = some .null) := by
  have hn : h[a]? = some h[a] := List.getElem?_eq_getElem ha
  rw [add_eq h a h[a] value comparator allocOk hn]
  by_cases h0 : comparator value h[a].value = 0
  · simp [h0]
  · by_cases h1 : comparator value h[a].value > 0
    · simp only [h0, h1, if_true, if_false]
      cases hl : h[a].link RB_RIGHT with
      | addr c => simp
      | null =>
        cases allocOk with
        | true => simp
        | false =>
          simp only [RBTreeNode.link] at hl
          simp only [findInsertionPoint, hn, h0, h1, if_true, if_false]
          exact ⟨_, rfl, by simp, fun _ =>
            ⟨rfl, rfl, _, _, rfl, by simp [getChild, hn, hl]⟩⟩
    · simp only [h0, h1, if_true, if_false]
      cases hl : h[a].link RB_LEFT with
      | addr c => simp
      | null =>
        cases allocOk with
        | true => simp
        | false =>
          simp only [RBTreeNode.link] at hl
          simp only [findInsertionPoint, hn, h0, h1, if_true, if_false]
          exact ⟨_, rfl, by simp, fun _ =>
            ⟨rfl, rfl, _, _, rfl, by simp [getChild, hn, hl]⟩⟩

/-- Witness of `add_out_of_memory`: `b` added to the one-node tree `d` with a
failing allocator. -/
theorem add_out_of_memory_witness :
    ∃ r, add [mkNode 'd' RB_BLACK .null .null] (.addr 0) 'b' compareChars false = some r ∧
      (r.code = RB_NOT_ENOUGH_MEMORY ↔ (0 < r.mallocCalls ∧ false = false)) ∧
      (r.code = RB_NOT_ENOUGH_MEMORY →
        r.createdNewNode = false ∧ r.heap = [mkNode 'd' RB_BLACK .null .null] ∧
        ∃ p branch,
          findInsertionPoint [mkNode 'd' RB_BLACK .null .null] (.addr 0) 'b' compareChars =
            some (.addr p, some branch) ∧
          getChild r.heap (.addr p) branch = some .null) :=
  add_out_of_memory [mkNode 'd' RB_BLACK .null .null] 0 'b' compareChars false (by decide)

/-! ## Search -/

theorem redLeafLink_grow {V : Type} (h : Heap V) (r : Nat) (P : V → Prop) (p : Ptr)
    (m x : RBTreeNode V) (hp : RedLeafLink h r P p) : RedLeafLink (h.set r m ++ [x]) r P p := by
  intro c hc
  obtain ⟨hne, y, hy, hrest⟩ := hp c hc
  exact ⟨hne, y, getElem?_set_append_ne h r c m x y hy hne, hrest⟩

theorem redLeafLink_fresh {V : Type} (h : Heap V) (r : Nat) (P : V → Prop)
    (m : RBTreeNode V) (value : V) (hr : r < h.length) (hP : P value) :
    RedLeafLink
      (h.set r m ++
        [{ value := value, colour := RB_RED, parent := .null, left := .null, right := .null }])
      r P (.addr h.length) := by
  intro c hc
  cases hc
  exact ⟨by omega, _, getElem?_set_append_length h r m _, rfl, rfl, rfl, hP⟩

/-- Every tree of the public API is shallow: `add` only ever attaches a red
leaf directly under the root, on the side the comparison with the root value
selects. -/
theorem built_shallow {V : Type} (comparator : RBComparator V) (h : Heap V) (root : Ptr)
    (hb : Built comparator h root) : Shallow comparator h root := by
  induction hb with
  | create h0 value =>
    refine ⟨h0.length, _, rfl, List.getElem?_concat_length h0 _, rfl, ?_, ?_⟩ <;>
    · intro c hc; cases hc
  | @add h root value allocOk res _ hadd ih =>
    obtain ⟨r, n, rfl, hn, hcol, hl, hr⟩ := ih
    have hlt : r < h.length := (List.getElem?_eq_some.mp hn).1
    rw [add_eq h r n value comparator allocOk hn] at hadd
    by_cases h0 : comparator value n.value = 0
    · simp only [h0, if_true, Option.some.injEq] at hadd
      subst hadd
      exact ⟨r, n, rfl, hn, hcol, hl, hr⟩
    · simp only [h0, if_false] at hadd
      by_cases h1 : comparator value n.value > 0
      · simp only [h1, if_true, RBTreeNode.link] at hadd
        cases hlk : n.right with
        | addr c =>
          simp only [hlk, Option.some.injEq] at hadd
          subst hadd
          exact ⟨r, n, rfl, hn, hcol, hl, hr⟩
        | null =>
          simp only [hlk] at hadd
          cases allocOk with
          | false =>
            simp only [Bool.false_eq_true, if_false, Option.some.injEq] at hadd
            subst hadd
            exact ⟨r, n, rfl, hn, hcol, hl, hr⟩
          | true =>
            simp only [if_true, Option.some.injEq] at hadd
            subst hadd
            refine ⟨r, _, rfl, getElem?_set_append h r _ _ hlt, hcol, ?_, ?_⟩
            · exact redLeafLink_grow h r _ _ _ _ hl
            · exact redLeafLink_fresh h r _ _ value hlt h1
      · simp only [h1, if_false, RBTreeNode.link] at hadd
        cases hlk : n.left with
        | addr c =>
          simp only [hlk, Option.some.injEq] at hadd
          subst hadd
          exact ⟨r, n, rfl, hn, hcol, hl, hr⟩
        | null =>
          simp only [hlk] at hadd
          cases allocOk with
          | false =>
            simp only [Bool.false_eq_true, if_false, Option.some.injEq] at hadd
            subst hadd
            exact ⟨r, n, rfl, hn, hcol, hl, hr⟩
          | true =>
            simp only [if_true, Option.some.injEq] at hadd
            subst hadd
            refine ⟨r, _, rfl, getElem?_set_append h r _ _ hlt, hcol, ?_, ?_⟩
            · exact redLeafLink_fresh h r _ _ value hlt
                (show comparator value n.value < 0 by omega)
            · exact redLeafLink_grow h r _ _ _ _ hr

/-- The nodes of a shallow tree are its root and the targets of the two links
of the root. -/
theorem reach_shallow {V : Type} (comparator : RBComparator V) (h : Heap V) (r : Nat)
    (n : RBTreeNode V) (hn : h[r]? = some n)
    (hl : RedLeafLink h r (fun v => comparator v n.value < 0) n.left)
    (hr : RedLeafLink h r (fun v => comparator v n.value > 0) n.right)
    (a : Nat) (ha : Reach h (.addr r) a) :
    a = r ∨ n.left = .addr a ∨ n.right = .addr a := by
  induction ha with
  | root a h => cases h; exact Or.inl rfl
  | left a c m _ hm hmc ih =>
    rcases ih with rfl | hla | hra
    · rw [hn] at hm; cases hm; exact Or.inr (Or.inl hmc)
    · obtain ⟨_, y, hy, _, hyl, _⟩ := hl a hla
      rw [hm] at hy; cases hy; rw [hyl] at hmc; cases hmc
    · obtain ⟨_, y, hy, _, hyl, _⟩ := hr a hra
      rw [hm] at hy; cases hy; rw [hyl] at hmc; cases hmc
  | right a c m _ hm hmc ih =>
    rcases ih with rfl | hla | hra
    · rw [hn] at hm; cases hm; exact Or.inr (Or.inr hmc)
    · obtain ⟨_, y, hy, _, _, hyr, _⟩ := hl a hla
      rw [hm] at hy; cases hy; rw [hyr] at hmc; cases hmc
    · obtain ⟨_, y, hy, _, _, hyr, _⟩ := hr a hra
      rw [hm] at hy; cases hy; rw [hyr] at hmc; cases hmc

/-- The tree `twoNodes` is what `createTree` of `d` in an empty heap followed
by `add` of `b` builds. -/
theorem built_twoNodes : Built compareChars twoNodes (.addr 0) :=
  Built.add 'b' true ⟨RB_SUCCESS, twoNodes, true, 1⟩ (Built.create [] 'd') (by decide)

/-- The node `b` at address `1` is a node of the tree `twoNodes` rooted at
address `0`. -/
theorem reach_twoNodes : Reach twoNodes (.addr 0) 1 :=
  Reach.left 0 1 (mkNode 'd' RB_BLACK (.addr 1) .null) (Reach.root 0 rfl) rfl rfl

/-- Claim C6 as stated is false: in the tree built by `createTree` of `d` and
`add` of `b`, the value `b` is held by a node of the tree, and
`findInsertionPoint` called with `b` does not return a `NULL` parent. -/
theorem findInsertionPoint_present_not_null :
    ¬ ∀ (h : Heap Char) (root : Ptr) (value : Char), Built compareChars h root →
        (∃ a n, Reach h root a ∧ h[a]? = some n ∧ n.value = value) →
        ∃ branch, findInsertionPoint h root value compareChars = some (.null, branch) := by
  intro H
  obtain ⟨branch, hb⟩ := H twoNodes (.addr 0) 'b' built_twoNodes
    ⟨1, mkNode 'b' RB_RED .null .null, reach_twoNodes, rfl, rfl⟩
  have he : findInsertionPoint twoNodes (.addr 0) 'b' compareChars =
      some (.addr 0, some RB_LEFT) := by decide
  rw [he] at hb
  cases hb

/-- Claim C6, amended.  In a tree built by `createTree` and `add` calls with one
comparator under which every value compares equal to itself,
`findInsertionPoint` called with the value a node of the tree holds returns a
`NULL` parent when that node is the root, and otherwise a non-`NULL` parent
and a branch such that the link of the parent on that branch leads to that
node. -/
theorem findInsertionPoint_present {V : Type} (comparator : RBComparator V)
    (hrefl : ∀ x, comparator x x = 0) (h : Heap V) (root : Ptr)
    (hb : Built comparator h root) (a : Nat) (n : RBTreeNode V)
    (hr : Reach h root a) (hn : h[a]? = some n) :
    (root = .addr a → findInsertionPoint h root n.value comparator = some (.null, none)) ∧
    (root ≠ .addr a → ∃ p branch,
      findInsertionPoint h root n.value comparator = some (.addr p, some branch) ∧
      getChild h (.addr p) branch = some (.addr a)) := by
  obtain ⟨r, nr, rfl, hnr, _, hl, hrt⟩ := built_shallow comparator h root hb
  constructor
  · intro he
    cases he
    rw [hn] at hnr; cases hnr
    simp [findInsertionPoint, hn, hrefl]
  · intro hne
    rcases reach_shallow comparator h r nr hnr hl hrt a hr with rfl | hla | hra
    · exact absurd rfl hne
    · obtain ⟨_, y, hy, _, _, _, hlt⟩ := hl a hla
      rw [hn] at hy; cases hy
      have h0 : ¬ comparator n.value nr.value = 0 := by omega
      have h1 : ¬ comparator n.value nr.value > 0 := by omega
      exact ⟨r, RB_LEFT, by simp [findInsertionPoint, hnr, h0, h1],
        by simp [getChild, hnr, hla]⟩
    · obtain ⟨_, y, hy, _, _, _, hgt⟩ := hrt a hra
      rw [hn] at hy; cases hy
      have h0 : ¬ comparator n.value nr.value = 0 := by omega
      exact ⟨r, RB_RIGHT, by simp [findInsertionPoint, hnr, h0, hgt],
        by simp [getChild, hnr, hra]⟩

/-- Witness of `findInsertionPoint_present`: the tree `twoNodes` with
`compareChars`, searched for the value `b` of the node at address `1`. -/
theorem findInsertionPoint_present_witness :
    (Ptr.addr 0 = Ptr.addr 1 →
      findInsertionPoint twoNodes (.addr 0) 'b' compareChars = some (.null, none)) ∧
    (Ptr.addr 0 ≠ Ptr.addr 1 → ∃ p branch,
      findInsertionPoint twoNodes (.addr 0) 'b' compareChars = some (.addr p, some branch) ∧
      getChild twoNodes (.addr p) branch = some (.addr 1)) :=
  findInsertionPoint_present compareChars (by intro x; simp [compareChars]) twoNodes (.addr 0)
    built_twoNodes 1 (mkNode 'b' RB_RED .null .null) reach_twoNodes rfl

/-- Claim C7, the code at the failing input.  The tree `twoNodes` is ordered
(`b` before `d`) and none of its nodes holds a value comparing equal to `a`;
`findInsertionPoint` called with `a` returns the root `d` as parent and
`RB_LEFT` as branch, yet the left link of `d` is not `NULL`: it leads to the
node at address `1`, which holds `b`, not `a`. -/
theorem findInsertionPoint_absent_occupied :
    inorder 2 twoNodes (.addr 0) = some ['b', 'd'] ∧ compareChars 'b' 'd' < 0 ∧
    (∀ n ∈ twoNodes, compareChars 'a' n.value ≠ 0) ∧
    findInsertionPoint twoNodes (.addr 0) 'a' compareChars = some (.addr 0, some RB_LEFT) ∧
    getChild twoNodes (.addr 0) RB_LEFT = some (.addr 1) ∧
    twoNodes[1]? = some (mkNode 'b' RB_RED .null .null) := by
  decide

/-! ## Frames of `setChild` and `rotate` -/

/-- A step along a link extends a path. -/
theorem reach_link {V : Type} (h : Heap V) (q : Ptr) (a c : Nat) (n : RBTreeNode V)
    (s : RBTreeBranch) (ha : Reach h q a) (hn : h[a]? = some n) (hc : n.link s = .addr c) :
    Reach h q c := by
  cases s with
  | RB_LEFT => exact Reach.left a c n ha hn hc
  | RB_RIGHT => exact Reach.right a c n ha hn hc

/-- Frame of `setChild`: the heap keeps its size, every node object keeps its
value, colour and parent link, and the only link that may differ is the link
of `node` on `branch`. -/
theorem setChild_frame {V : Type} (h h1 : Heap V) (node child old : Ptr) (s : RBTreeBranch)
    (hset : setChild h node child s = some (h1, old)) :
    h1.length = h.length ∧
    ∀ a n, h[a]? = some n → ∃ n1, h1[a]? = some n1 ∧ n1.value = n.value ∧
      n1.colour = n.colour ∧ n1.parent = n.parent ∧
      ∀ b, ¬ (node = .addr a ∧ b = s) → n1.link b = n.link b := by
  cases node with
  | null =>
    simp only [setChild, Option.some.injEq, Prod.mk.injEq] at hset
    obtain ⟨rfl, _⟩ := hset
    exact ⟨rfl, fun a n hn => ⟨n, hn, rfl, rfl, rfl, fun _ _ => rfl⟩⟩
  | addr x =>
    cases child with
    | null =>
      simp only [setChild, Option.some.injEq, Prod.mk.injEq] at hset
      obtain ⟨rfl, _⟩ := hset
      exact ⟨rfl, fun a n hn => ⟨n, hn, rfl, rfl, rfl, fun _ _ => rfl⟩⟩
    | addr c =>
      cases hx : h[x]? with
      | none => simp [setChild, hx] at hset
      | some m =>
        rw [setChild_eq h x c m s hx] at hset
        simp only [Option.some.injEq, Prod.mk.injEq] at hset
        obtain ⟨rfl, _⟩ := hset
        refine ⟨by simp, fun a n hn => ?_⟩
        have hxl : x < h.length := (List.getElem?_eq_some.mp hx).1
        by_cases hax : a = x
        · subst hax
          rw [hx] at hn; cases hn
          refine ⟨m.setLink s (.addr c), by simp [hxl], value_setLink _ _ _, colour_setLink _ _ _,
            parent_setLink _ _ _, fun b hb => ?_⟩
          exact link_of_ne _ _ _ _ (fun hbs => hb ⟨rfl, hbs⟩)
        · exact ⟨n, by rw [List.getElem?_set_ne (Ne.symm hax), hn], rfl, rfl, rfl,
            fun _ _ => rfl⟩

/-- Frame of `rotate`: the heap keeps its size, every node object keeps its
value, colour and parent link, and the only links that may differ are the link
of `root` on the promoted branch and the link of the returned node on the
opposite branch. -/
theorem rotate_frame {V : Type} (h h2 : Heap V) (root res : Ptr) (s : RBTreeBranch)
    (hrot : rotate h root s = some (h2, res)) :
    h2.length = h.length ∧
    ∀ a n, h[a]? = some n → ∃ n2, h2[a]? = some n2 ∧ n2.value = n.value ∧
      n2.colour = n.colour ∧ n2.parent = n.parent ∧
      ∀ b, ¬ (root = .addr a ∧ b = s) → ¬ (res = .addr a ∧ b = opposite s) →
        n2.link b = n.link b := by
  simp only [rotate] at hrot
  cases hg : getChild h root s with
  | none => simp [hg] at hrot
  | some inc =>
    simp only [hg] at hrot
    cases h1e : setChild h inc root (opposite s) with
    | none => simp [h1e] at hrot
    | some r1 =>
      obtain ⟨h1, orphan⟩ := r1
      simp only [h1e] at hrot
      cases h2e : setChild h1 root orphan s with
      | none => simp [h2e] at hrot
      | some r2 =>
        obtain ⟨h2', x⟩ := r2
        simp only [h2e, Option.some.injEq, Prod.mk.injEq] at hrot
        obtain ⟨rfl, rfl⟩ := hrot
        obtain ⟨hl1, f1⟩ := setChild_frame h h1 inc root orphan (opposite s) h1e
        obtain ⟨hl2, f2⟩ := setChild_frame h1 h2' root orphan x s h2e
        refine ⟨by rw [hl2, hl1], fun a n hn => ?_⟩
        obtain ⟨n1, hn1, hv1, hc1, hp1, hk1⟩ := f1 a n hn
        obtain ⟨n2, hn2, hv2, hc2, hp2, hk2⟩ := f2 a n1 hn1
        exact ⟨n2, hn2, hv2.trans hv1, hc2.trans hc1, hp2.trans hp1,
          fun b hb1 hb2 => (hk2 b hb1).trans (hk1 b hb2)⟩

/-- On a root that holds a node object and has a child `p` that holds a node
object, `rotate` returns, and it returns `p`. -/
theorem rotate_total {V : Type} (h : Heap V) (r p : Nat) (nr np : RBTreeNode V)
    (s : RBTreeBranch) (hr : h[r]? = some nr) (hp : h[p]? = some np)
    (hlink : nr.link s = .addr p) : ∃ h2, rotate h (.addr r) s = some (h2, .addr p) := by
  cases ho : np.link (opposite s) with
  | null => exact ⟨_, rotate_eq_null h r p nr np s hr hp hlink ho⟩
  | addr o =>
    have hrl : r < h.length := (List.getElem?_eq_some.mp hr).1
    have hlt : r < (h.set p (np.setLink (opposite s) (.addr r))).length := by
      simpa using hrl
    have h1 : ∃ m, (h.set p (np.setLink (opposite s) (.addr r)))[r]? = some m :=
      ⟨_, List.getElem?_eq_getElem hlt⟩
    obtain ⟨m, hm⟩ := h1
    refine ⟨(h.set p (np.setLink (opposite s) (.addr r))).set r (m.setLink s (.addr o)), ?_⟩
    simp only [rotate, getChild_eq h r nr s hr, hlink,
      setChild_eq h p r np (opposite s) hp, ho, setChild_eq _ r o m s hm]

/-- Claim C12.  When `node` or `child` is `NULL`, `setChild` changes nothing
and returns `NULL`.  Otherwise (on a node that holds a node object) it returns
the previous link of the node on `branch`; afterwards that link is `child`, the
link on the opposite branch, the value, the colour and the parent link of the
node are as before, every other node object is as before, and `getChild` on
the node and `branch` returns `child`. -/
theorem setChild_contract {V : Type} (h : Heap V) (node child : Ptr) (s : RBTreeBranch) :
    ((node = .null ∨ child = .null) → setChild h node child s = some (h, .null)) ∧
    (∀ a c n, node = .addr a → child = .addr c → h[a]? = some n →
      ∃ h2 n2, setChild h node child s = some (h2, n.link s) ∧
        h2[a]? = some n2 ∧ n2.link s = child ∧ n2.link (opposite s) = n.link (opposite s) ∧
        n2.value = n.value ∧ n2.colour = n.colour ∧ n2.parent = n.parent ∧
        h2.length = h.length ∧ (∀ b, b ≠ a → h2[b]? = h[b]?) ∧
        getChild h2 node s = some child) := by
  constructor
  · rintro (rfl | rfl)
    · rfl
    · exact setChild_null h node s
  · rintro a c n rfl rfl hn
    have hal : a < h.length := (List.getElem?_eq_some.mp hn).1
    have h2a : (h.set a (n.setLink s (.addr c)))[a]? = some (n.setLink s (.addr c)) := by
      simp [hal]
    refine ⟨_, _, setChild_eq h a c n s hn, h2a, link_setLink _ _ _,
      link_opposite_setLink _ _ _, value_setLink _ _ _, colour_setLink _ _ _,
      parent_setLink _ _ _, by simp, fun b hb => List.getElem?_set_ne (Ne.symm hb), ?_⟩
    rw [getChild_eq _ a _ s h2a, link_setLink]

/-- Witness of `setChild_contract`: in `twoNodes`, the right link of `d` is set
to `b`. -/
theorem setChild_contract_witness :
    ∃ h2 n2, setChild twoNodes (.addr 0) (.addr 1) RB_RIGHT =
        some (h2, (mkNode 'd' RB_BLACK (.addr 1) .null).link RB_RIGHT) ∧
      h2[0]? = some n2 ∧ n2.link RB_RIGHT = .addr 1 ∧
      n2.link (opposite RB_RIGHT) = (mkNode 'd' RB_BLACK (.addr 1) .null).link (opposite RB_RIGHT) ∧
      n2.value = 'd' ∧ n2.colour = RB_BLACK ∧ n2.parent = .null ∧
      h2.length = twoNodes.length ∧ (∀ b, b ≠ 0 → h2[b]? = twoNodes[b]?) ∧
      getChild h2 (.addr 0) RB_RIGHT = some (.addr 1) :=
  (setChild_contract twoNodes (.addr 0) (.addr 1) RB_RIGHT).2 0 1
    (mkNode 'd' RB_BLACK (.addr 1) .null) rfl rfl rfl

/-- Claim C13.  A call of `rotate` on a root `r` with promoted child `p`
returns `p`; every node object keeps its value and colour, and the only links
that can differ afterwards are the link of `r` on the promoted branch and the
link of `p` on the opposite branch.  In particular, for `r` and `p` distinct,
the link of `p` on the promoted branch and the link of `r` on the opposite
branch are as before. -/
theorem rotate_frame_promoted {V : Type} (h : Heap V) (r p : Nat) (nr np : RBTreeNode V)
    (s : RBTreeBranch) (hr : h[r]? = some nr) (hp : h[p]? = some np)
    (hlink : nr.link s = .addr p) :
    ∃ h2, rotate h (.addr r) s = some (h2, .addr p) ∧ h2.length = h.length ∧
      (∀ a n, h[a]? = some n → ∃ n2, h2[a]? = some n2 ∧ n2.value = n.value ∧
        n2.colour = n.colour ∧
        ∀ b, ¬ (a = r ∧ b = s) → ¬ (a = p ∧ b = opposite s) → n2.link b = n.link b) ∧
      (r ≠ p → getChild h2 (.addr p) s = getChild h (.addr p) s ∧
        getChild h2 (.addr r) (opposite s) = getChild h (.addr r) (opposite s)) := by
  obtain ⟨h2, hrot⟩ := rotate_total h r p nr np s hr hp hlink
  obtain ⟨hlen, hfr⟩ := rotate_frame h h2 (.addr r) (.addr p) s hrot
  refine ⟨h2, hrot, hlen, fun a n hn => ?_, fun hrp => ?_⟩
  · obtain ⟨n2, hn2, hv, hc, _, hk⟩ := hfr a n hn
    refine ⟨n2, hn2, hv, hc, fun b hb1 hb2 => hk b ?_ ?_⟩
    · rintro ⟨hra, hbs⟩; cases hra; exact hb1 ⟨rfl, hbs⟩
    · rintro ⟨hpa, hbs⟩; cases hpa; exact hb2 ⟨rfl, hbs⟩
  · obtain ⟨np2, hnp2, _, _, _, hkp⟩ := hfr p np hp
    obtain ⟨nr2, hnr2, _, _, _, hkr⟩ := hfr r nr hr
    rw [getChild_eq h2 p np2 s hnp2, getChild_eq h p np s hp,
      getChild_eq h2 r nr2 _ hnr2, getChild_eq h r nr _ hr]
    constructor
    · rw [hkp s (by rintro ⟨hrp2, _⟩; cases hrp2; exact hrp rfl)
        (by rintro ⟨_, hs⟩; exact opposite_ne s hs.symm)]
    · rw [hkr (opposite s) (by rintro ⟨_, hs⟩; exact opposite_ne s hs)
        (by rintro ⟨hpr, _⟩; cases hpr; exact hrp rfl)]

/-- Witness of `rotate_frame_promoted`: the seven-node tree of the tests
rotated at `d` with `RB_LEFT`. -/
theorem rotate_frame_promoted_witness :
    ∃ h2, rotate alphabeticalOrdering (.addr 3) RB_LEFT = some (h2, .addr 1) ∧
      h2.length = alphabeticalOrdering.length ∧
      (∀ a n, alphabeticalOrdering[a]? = some n → ∃ n2, h2[a]? = some n2 ∧
        n2.value = n.value ∧ n2.colour = n.colour ∧
        ∀ b, ¬ (a = 3 ∧ b = RB_LEFT) → ¬ (a = 1 ∧ b = opposite RB_LEFT) →
          n2.link b = n.link b) ∧
      (3 ≠ 1 → getChild h2 (.addr 1) RB_LEFT = getChild alphabeticalOrdering (.addr 1) RB_LEFT ∧
        getChild h2 (.addr 3) (opposite RB_LEFT) =
          getChild alphabeticalOrdering (.addr 3) (opposite RB_LEFT)) :=
  rotate_frame_promoted alphabeticalOrdering 3 1 (mkNode 'd' RB_BLACK (.addr 1) (.addr 5))
    (mkNode 'b' RB_RED (.addr 0) (.addr 2)) RB_LEFT rfl rfl rfl


/-- Claim C17.  When `root` has no child on the branch to promote (`getChild`
returns `NULL`, for a `NULL` root as well), `rotate` returns `NULL` and leaves
the heap as it is. -/
theorem rotate_nothing_to_promote {V : Type} (h : Heap V) (root : Ptr) (s : RBTreeBranch)
    (hno : getChild h root s = some .null) : rotate h root s = some (h, .null) := by
  have h1 : setChild h .null root (opposite s) = some (h, .null) := by
    cases root <;> rfl
  simp only [rotate, hno, h1, setChild_null]

/-- Witness of `rotate_nothing_to_promote`: `twoNodes` rotated at `d` with
`RB_RIGHT`, and a rotation at a `NULL` root. -/
theorem rotate_nothing_to_promote_witness :
    rotate twoNodes (.addr 0) RB_RIGHT = some (twoNodes, .null) ∧
    rotate twoNodes .null RB_LEFT = some (twoNodes, .null) :=
  ⟨rotate_nothing_to_promote twoNodes (.addr 0) RB_RIGHT (by decide),
    rotate_nothing_to_promote twoNodes .null RB_LEFT (by decide)⟩

/-- Claim C20.  When the child `p` of `r` on the promoted branch has no child
on the opposite branch, `rotate` returns `p`; afterwards the link of `p` on
the opposite branch leads to `r` while the link of `r` on the promoted branch
still leads to `p`: `r` is reached from its own child, and the structure has
no finite in-order sequence. -/
theorem rotate_absent_inner {V : Type} (h : Heap V) (r p : Nat) (nr np : RBTreeNode V)
    (s : RBTreeBranch) (hr : h[r]? = some nr) (hp : h[p]? = some np)
    (hlink : nr.link s = .addr p) (horphan : np.link (opposite s) = .null) :
    ∃ h2, rotate h (.addr r) s = some (h2, .addr p) ∧
      getChild h2 (.addr p) (opposite s) = some (.addr r) ∧
      getChild h2 (.addr r) s = some (.addr p) ∧
      Reach h2 (.addr p) r ∧
      ∀ fuel, inorder fuel h2 (.addr r) = none := by
  have hpl : p < h.length := (List.getElem?_eq_some.mp hp).1
  have hp2 : (h.set p (np.setLink (opposite s) (.addr r)))[p]? =
      some (np.setLink (opposite s) (.addr r)) := by simp [hpl]
  have hr2 : ∃ nr2, (h.set p (np.setLink (opposite s) (.addr r)))[r]? = some nr2 ∧
      nr2.link s = .addr p := by
    by_cases hrp : r = p
    · subst hrp
      rw [hr] at hp; cases hp
      exact ⟨_, hp2, by rw [link_setLink_opposite, hlink]⟩
    · exact ⟨nr, by rw [List.getElem?_set_ne (Ne.symm hrp), hr], hlink⟩
  obtain ⟨nr2, hnr2, hl2⟩ := hr2
  refine ⟨_, rotate_eq_null h r p nr np s hr hp hlink horphan, ?_, ?_, ?_, fun fuel => ?_⟩
  · rw [getChild_eq _ p _ _ hp2, link_setLink]
  · rw [getChild_eq _ r nr2 _ hnr2, hl2]
  · exact reach_link _ _ p r _ (opposite s) (Reach.root p rfl) hp2 (link_setLink _ _ _)
  · exact (inorder_none_of_cycle _ r p nr2 _ s (opposite s) hnr2 hp2 hl2
      (link_setLink _ _ _) fuel).1

/-- Witness of `rotate_absent_inner`: `twoNodes` rotated at `d` with
`RB_LEFT`. -/
theorem rotate_absent_inner_witness :
    ∃ h2, rotate twoNodes (.addr 0) RB_LEFT = some (h2, .addr 1) ∧
      getChild h2 (.addr 1) (opposite RB_LEFT) = some (.addr 0) ∧
      getChild h2 (.addr 0) RB_LEFT = some (.addr 1) ∧
      Reach h2 (.addr 1) 0 ∧
      ∀ fuel, inorder fuel h2 (.addr 0) = none :=
  rotate_absent_inner twoNodes 0 1 (mkNode 'd' RB_BLACK (.addr 1) .null)
    (mkNode 'b' RB_RED .null .null) RB_LEFT rfl rfl rfl rfl

/-! ## Insertion and search at the root -/

/-- Claim C11.  When the root has no child on the side where the value
belongs (`RB_LEFT` for a negative comparison with the root value, `RB_RIGHT`
for a positive one) and the allocation succeeds, `add` returns `RB_SUCCESS`,
sets `*createdNewNode` to true and makes the root link on that side lead to
one new node object that holds the value, is coloured `RB_RED` and has `NULL`
links; the other link of the root, its value and colour, and every other node
object are as before. -/
theorem add_next_to_root {V : Type} (h : Heap V) (a : Nat) (n : RBTreeNode V) (value : V)
    (comparator : RBComparator V) (side : RBTreeBranch) (hn : h[a]? = some n)
    (hside : (comparator value n.value < 0 ∧ side = RB_LEFT) ∨
      (comparator value n.value > 0 ∧ side = RB_RIGHT))
    (hfree : getChild h (.addr a) side = some .null) :
    ∃ res n2, add h (.addr a) value comparator true = some res ∧
      res.code = RB_SUCCESS ∧ res.createdNewNode = true ∧
      res.heap.length = h.length + 1 ∧
      getChild res.heap (.addr a) side = some (.addr h.length) ∧
      res.heap[h.length]? = some { value := value, colour := RB_RED, parent := .null,
                                   left := .null, right := .null } ∧
      res.heap[a]? = some n2 ∧ n2.link (opposite side) = n.link (opposite side) ∧
      n2.value = n.value ∧ n2.colour = n.colour ∧
      ∀ b m, b ≠ a → h[b]? = some m → res.heap[b]? = some m := by
  have hal : a < h.length := (List.getElem?_eq_some.mp hn).1
  have h0 : ¬ comparator value n.value = 0 := by omega
  have hs : (if comparator value n.value > 0 then RB_RIGHT else RB_LEFT) = side := by
    rcases hside with ⟨hlt, rfl⟩ | ⟨hgt, rfl⟩
    · rw [if_neg (by omega)]
    · rw [if_pos hgt]
  rw [getChild_eq h a n side hn] at hfree
  simp only [Option.some.injEq] at hfree
  have hadd := add_eq h a n value comparator true hn
  simp only [h0, if_false, hs, hfree, if_true] at hadd
  have hroot := getElem?_set_append h a (n.setLink side (.addr h.length))
    { value := value, colour := RB_RED, parent := .null, left := .null, right := .null } hal
  refine ⟨_, _, hadd, rfl, rfl, by simp, ?_, getElem?_set_append_length h a _ _, hroot,
    link_opposite_setLink _ _ _, value_setLink _ _ _, colour_setLink _ _ _,
    fun b m hb hm => getElem?_set_append_ne h a b _ _ m hm hb⟩
  rw [getChild_eq _ a _ side hroot, link_setLink]

/-- Witness of `add_next_to_root`: the one-node tree `b` of the tests
`add_simple_lessthan` and `add_simple_greaterthan`, receiving `a` and `c`. -/
theorem add_next_to_root_witness :
    (∃ res n2, add [mkNode 'b' RB_BLACK .null .null] (.addr 0) 'a' compareChars true = some res ∧
      res.code = RB_SUCCESS ∧ res.createdNewNode = true ∧
      res.heap.length = [mkNode 'b' RB_BLACK .null .null].length + 1 ∧
      getChild res.heap (.addr 0) RB_LEFT = some (.addr 1) ∧
      res.heap[1]? = some { value := 'a', colour := RB_RED, parent := .null,
                            left := .null, right := .null } ∧
      res.heap[0]? = some n2 ∧ n2.link (opposite RB_LEFT) = .null ∧
      n2.value = 'b' ∧ n2.colour = RB_BLACK ∧
      ∀ b m, b ≠ 0 → [mkNode 'b' RB_BLACK .null .null][b]? = some m →
        res.heap[b]? = some m) ∧
    (∃ res n2, add [mkNode 'b' RB_BLACK .null .null] (.addr 0) 'c' compareChars true = some res ∧
      res.code = RB_SUCCESS ∧ res.createdNewNode = true ∧
      res.heap.length = [mkNode 'b' RB_BLACK .null .null].length + 1 ∧
      getChild res.heap (.addr 0) RB_RIGHT = some (.addr 1) ∧
      res.heap[1]? = some { value := 'c', colour := RB_RED, parent := .null,
                            left := .null, right := .null } ∧
      res.heap[0]? = some n2 ∧ n2.link (opposite RB_RIGHT) = .null ∧
      n2.value = 'b' ∧ n2.colour = RB_BLACK ∧
      ∀ b m, b ≠ 0 → [mkNode 'b' RB_BLACK .null .null][b]? = some m →
        res.heap[b]? = some m) :=
  ⟨add_next_to_root [mkNode 'b' RB_BLACK .null .null] 0 (mkNode 'b' RB_BLACK .null .null) 'a'
      compareChars RB_LEFT rfl (Or.inl ⟨by decide, rfl⟩) (by decide),
    add_next_to_root [mkNode 'b' RB_BLACK .null .null] 0 (mkNode 'b' RB_BLACK .null .null) 'c'
      compareChars RB_RIGHT rfl (Or.inr ⟨by decide, rfl⟩) (by decide)⟩

/-- Claim C18.  For a `NULL` root `findInsertionPoint` returns a `NULL` parent
without calling the comparator.  For a root that holds a node object it calls
the comparator exactly once, on the value and the root value; the parent is
`NULL` exactly when that comparison is `0`, otherwise the parent is the root,
with `RB_RIGHT` for a positive and `RB_LEFT` for a negative comparison; the
result is the same in every heap in which the root holds the same value,
whatever lies below the root. -/
theorem findInsertionPoint_root_only {V : Type} (h : Heap V) (value : V)
    (comparator : RBComparator V) :
    findInsertionPointCalls h .null value comparator = some (.null, none, []) ∧
    findInsertionPoint h .null value comparator = some (.null, none) ∧
    ∀ a n, h[a]? = some n →
      ∃ parent branch,
        findInsertionPointCalls h (.addr a) value comparator =
          some (parent, branch, [(value, n.value)]) ∧
        findInsertionPoint h (.addr a) value comparator = some (parent, branch) ∧
        (parent = .null ↔ comparator value n.value = 0) ∧
        (comparator value n.value > 0 → parent = .addr a ∧ branch = some RB_RIGHT) ∧
        (comparator value n.value < 0 → parent = .addr a ∧ branch = some RB_LEFT) ∧
        ∀ (h2 : Heap V) (n2 : RBTreeNode V), h2[a]? = some n2 → n2.value = n.value →
          findInsertionPoint h2 (.addr a) value comparator = some (parent, branch) := by
  refine ⟨rfl, rfl, fun a n hn => ?_⟩
  by_cases h0 : comparator value n.value = 0
  · refine ⟨.null, none, by simp [findInsertionPointCalls, hn, h0],
      by simp [findInsertionPoint, hn, h0], by simp [h0], by omega, by omega, ?_⟩
    intro h2 n2 hn2 hv
    simp [findInsertionPoint, hn2, hv, h0]
  · by_cases h1 : comparator value n.value > 0
    · refine ⟨.addr a, some RB_RIGHT, by simp [findInsertionPointCalls, hn, h0, h1],
        by simp [findInsertionPoint, hn, h0, h1], by simp [h0], fun _ => ⟨rfl, rfl⟩,
        by omega, ?_⟩
      intro h2 n2 hn2 hv
      simp [findInsertionPoint, hn2, hv, h0, h1]
    · refine ⟨.addr a, some RB_LEFT, by simp [findInsertionPointCalls, hn, h0, h1],
        by simp [findInsertionPoint, hn, h0, h1], by simp [h0], by omega,
        fun _ => ⟨rfl, rfl⟩, ?_⟩
      intro h2 n2 hn2 hv
      simp [findInsertionPoint, hn2, hv, h0, h1]

/-! ## Trees of the public API -/

/-- The heap a call of `add` leaves behind: the heap as it was, or the heap
with one new red leaf at the fresh address, linked from the root through a
link that was `NULL`. -/
theorem add_cases {V : Type} (h : Heap V) (r : Nat) (n : RBTreeNode V) (value : V)
    (comparator : RBComparator V) (allocOk : Bool) (res : AddResult V)
    (hn : h[r]? = some n) (hadd : add h (.addr r) value comparator allocOk = some res) :
    res.heap = h ∨
    ∃ side, n.link side = .null ∧
      res.heap = h.set r (n.setLink side (.addr h.length)) ++
        [{ value := value, colour := RB_RED, parent := .null, left := .null,
           right := .null }] := by
  rw [add_eq h r n value comparator allocOk hn] at hadd
  by_cases h0 : comparator value n.value = 0
  · simp only [h0, if_true, Option.some.injEq] at hadd
    subst hadd
    exact Or.inl rfl
  · simp only [h0, if_false] at hadd
    cases hl : n.link (if comparator value n.value > 0 then RB_RIGHT else RB_LEFT) with
    | addr c =>
      simp only [hl, Option.some.injEq] at hadd
      subst hadd
      exact Or.inl rfl
    | null =>
      simp only [hl] at hadd
      cases allocOk with
      | false =>
        simp only [Bool.false_eq_true, if_false, Option.some.injEq] at hadd
        subst hadd
        exact Or.inl rfl
      | true =>
        simp only [if_true, Option.some.injEq] at hadd
        subst hadd
        exact Or.inr ⟨_, hl, rfl⟩

/-- Frame of `add`: every node object keeps its value, colour and parent link,
and a node object at an address that was not in use is the new red leaf. -/
theorem add_frame {V : Type} (h : Heap V) (root : Ptr) (value : V)
    (comparator : RBComparator V) (allocOk : Bool) (res : AddResult V)
    (hadd : add h root value comparator allocOk = some res) :
    (∀ (a : Nat) (m : RBTreeNode V), h[a]? = some m →
      ∃ m2, res.heap[a]? = some m2 ∧ m2.value = m.value ∧ m2.colour = m.colour ∧
        m2.parent = m.parent) ∧
    (∀ (a : Nat) (m2 : RBTreeNode V), h.length ≤ a → res.heap[a]? = some m2 →
      m2 = { value := value, colour := RB_RED, parent := .null, left := .null,
             right := .null }) := by
  cases root with
  | null => simp [add] at hadd
  | addr r =>
    cases hn : h[r]? with
    | none => simp [add, findInsertionPoint, hn] at hadd
    | some n =>
      rcases add_cases h r n value comparator allocOk res hn hadd with he | ⟨side, _, he⟩
      · rw [he]
        refine ⟨fun a m hm => ⟨m, hm, rfl, rfl, rfl⟩, fun a m2 hle hm2 => ?_⟩
        have := (List.getElem?_eq_some.mp hm2).1
        omega
      · rw [he]
        have hrl : r < h.length := (List.getElem?_eq_some.mp hn).1
        refine ⟨fun a m hm => ?_, fun a m2 hle hm2 => ?_⟩
        · by_cases har : a = r
          · subst har
            rw [hn] at hm; cases hm
            exact ⟨_, getElem?_set_append h a _ _ hrl, value_setLink _ _ _,
              colour_setLink _ _ _, parent_setLink _ _ _⟩
          · exact ⟨m, getElem?_set_append_ne h r a _ _ m hm har, rfl, rfl, rfl⟩
        · rw [List.getElem?_append_right (by simpa using hle)] at hm2
          simp only [List.length_set] at hm2
          cases hk : a - h.length with
          | zero => rw [hk] at hm2; simpa using hm2.symm
          | succ k => rw [hk] at hm2; simp at hm2

/-- A red leaf under the root stays one when `add` attaches a new node. -/
theorem leafLink_grow {V : Type} (h : Heap V) (r : Nat) (p : Ptr)
    (m x : RBTreeNode V) (hp : LeafLink h r p) : LeafLink (h.set r m ++ [x]) r p := by
  intro c hc
  obtain ⟨hne, y, hy, hrest⟩ := hp c hc
  exact ⟨hne, y, getElem?_set_append_ne h r c m x y hy hne, hrest⟩

/-- The node `add` attaches is a red leaf with a `NULL` parent link. -/
theorem leafLink_fresh {V : Type} (h : Heap V) (r : Nat) (m : RBTreeNode V) (value : V)
    (hr : r < h.length) :
    LeafLink
      (h.set r m ++
        [{ value := value, colour := RB_RED, parent := .null, left := .null, right := .null }])
      r (.addr h.length) := by
  intro c hc
  cases hc
  exact ⟨by omega, _, getElem?_set_append_length h r m _, rfl, rfl, rfl, rfl⟩

/-- A call of `add` keeps a flat tree flat. -/
theorem add_flat {V : Type} (h : Heap V) (root : Ptr) (value : V)
    (comparator : RBComparator V) (allocOk : Bool) (res : AddResult V)
    (hflat : Flat h root) (hadd : add h root value comparator allocOk = some res) :
    Flat res.heap root := by
  obtain ⟨r, n, rfl, hn, hcol, hpar, hl, hr⟩ := hflat
  have hrl : r < h.length := (List.getElem?_eq_some.mp hn).1
  rcases add_cases h r n value comparator allocOk res hn hadd with he | ⟨side, _, he⟩
  · rw [he]; exact ⟨r, n, rfl, hn, hcol, hpar, hl, hr⟩
  · rw [he]
    cases side with
    | RB_LEFT =>
      exact ⟨r, _, rfl, getElem?_set_append h r _ _ hrl, hcol, hpar,
        leafLink_fresh h r _ value hrl, leafLink_grow h r _ _ _ hr⟩
    | RB_RIGHT =>
      exact ⟨r, _, rfl, getElem?_set_append h r _ _ hrl, hcol, hpar,
        leafLink_grow h r _ _ _ hl, leafLink_fresh h r _ value hrl⟩

/-- Every tree of the public API is flat, whatever the comparators. -/
theorem grown_flat {V : Type} (h : Heap V) (root : Ptr) (hg : Grown h root) : Flat h root := by
  induction hg with
  | create h0 value =>
    refine ⟨h0.length, _, rfl, List.getElem?_concat_length h0 _, rfl, rfl, ?_, ?_⟩ <;>
    · intro c hc; cases hc
  | add value comparator allocOk res _ hadd ih =>
    exact add_flat _ _ value comparator allocOk res ih hadd

/-- A tree built with one comparator is a tree of the public API. -/
theorem built_grown {V : Type} (comparator : RBComparator V) (h : Heap V) (root : Ptr)
    (hb : Built comparator h root) : Grown h root := by
  induction hb with
  | create h0 value => exact Grown.create h0 value
  | add value allocOk res _ hadd ih => exact Grown.add value comparator allocOk res ih hadd

/-- The nodes of a flat tree are its root and the targets of the two links of
the root. -/
theorem reach_flat {V : Type} (h : Heap V) (r : Nat) (n : RBTreeNode V) (hn : h[r]? = some n)
    (hl : LeafLink h r n.left) (hr : LeafLink h r n.right)
    (a : Nat) (ha : Reach h (.addr r) a) :
    a = r ∨ n.left = .addr a ∨ n.right = .addr a := by
  refine reach_closed h (.addr r) (fun a => a = r ∨ n.left = .addr a ∨ n.right = .addr a)
    ?_ ?_ a ha
  · intro c hc; cases hc; exact Or.inl rfl
  · rintro x m (rfl | hx | hx) hm
    · rw [hn] at hm; cases hm
      exact ⟨fun c hc => Or.inr (Or.inl hc), fun c hc => Or.inr (Or.inr hc)⟩
    · obtain ⟨_, y, hy, _, _, hyl, hyr⟩ := hl x hx
      rw [hm] at hy; cases hy
      exact ⟨fun c hc => (by rw [hyl] at hc; cases hc), fun c hc => (by rw [hyr] at hc; cases hc)⟩
    · obtain ⟨_, y, hy, _, _, hyl, hyr⟩ := hr x hx
      rw [hm] at hy; cases hy
      exact ⟨fun c hc => (by rw [hyl] at hc; cases hc), fun c hc => (by rw [hyr] at hc; cases hc)⟩

/-- The tree `twoNodes` is a tree of the public API. -/
theorem grown_twoNodes : Grown twoNodes (.addr 0) :=
  Grown.add 'b' compareChars true ⟨RB_SUCCESS, twoNodes, true, 1⟩ (Grown.create [] 'd')
    (by decide)

/-- Claim C19.  Every tree reached from `createTree` by calls of `add` on its
root (any values, comparators and allocator answers) has a `RB_BLACK` root
whose left and right links, when not `NULL`, lead to `RB_RED` nodes with
`NULL` links, and has no other node: at most three nodes.  A further call of
`add` leaves the colour of every existing node object as it is. -/
theorem grown_three_nodes {V : Type} (h : Heap V) (root : Ptr) (hg : Grown h root) :
    ∃ r n, root = .addr r ∧ h[r]? = some n ∧ n.colour = RB_BLACK ∧
      (∀ c, n.left = .addr c →
        ∃ m, h[c]? = some m ∧ m.colour = RB_RED ∧ m.left = .null ∧ m.right = .null) ∧
      (∀ c, n.right = .addr c →
        ∃ m, h[c]? = some m ∧ m.colour = RB_RED ∧ m.left = .null ∧ m.right = .null) ∧
      (∀ a, Reach h root a → a = r ∨ n.left = .addr a ∨ n.right = .addr a) ∧
      ∀ (value : V) (comparator : RBComparator V) (allocOk : Bool) (res : AddResult V),
        add h root value comparator allocOk = some res →
        ∀ (a : Nat) (m : RBTreeNode V), h[a]? = some m →
          ∃ m2, res.heap[a]? = some m2 ∧ m2.colour = m.colour := by
  obtain ⟨r, n, rfl, hn, hcol, _, hl, hr⟩ := grown_flat h root hg
  refine ⟨r, n, rfl, hn, hcol, fun c hc => ?_, fun c hc => ?_,
    reach_flat h r n hn hl hr, fun value comparator allocOk res hadd a m hm => ?_⟩
  · obtain ⟨_, m, hm, hmc, _, hml, hmr⟩ := hl c hc
    exact ⟨m, hm, hmc, hml, hmr⟩
  · obtain ⟨_, m, hm, hmc, _, hml, hmr⟩ := hr c hc
    exact ⟨m, hm, hmc, hml, hmr⟩
  · obtain ⟨m2, hm2, _, hc2, _⟩ :=
      (add_frame h (.addr r) value comparator allocOk res hadd).1 a m hm
    exact ⟨m2, hm2, hc2⟩

/-- Witness of `grown_three_nodes`: the tree `twoNodes`. -/
theorem grown_three_nodes_witness :
    ∃ r n, Ptr.addr 0 = .addr r ∧ twoNodes[r]? = some n ∧ n.colour = RB_BLACK ∧
      (∀ c, n.left = .addr c →
        ∃ m, twoNodes[c]? = some m ∧ m.colour = RB_RED ∧ m.left = .null ∧ m.right = .null) ∧
      (∀ c, n.right = .addr c →
        ∃ m, twoNodes[c]? = some m ∧ m.colour = RB_RED ∧ m.left = .null ∧ m.right = .null) ∧
      (∀ a, Reach twoNodes (.addr 0) a → a = r ∨ n.left = .addr a ∨ n.right = .addr a) ∧
      ∀ (value : Char) (comparator : RBComparator Char) (allocOk : Bool)
        (res : AddResult Char),
        add twoNodes (.addr 0) value comparator allocOk = some res →
        ∀ (a : Nat) (m : RBTreeNode Char), twoNodes[a]? = some m →
          ∃ m2, res.heap[a]? = some m2 ∧ m2.colour = m.colour :=
  grown_three_nodes twoNodes (.addr 0) grown_twoNodes

/-- In a tree of the public API a red node has no children. -/
theorem grown_red_leaf {V : Type} (h : Heap V) (root : Ptr) (hg : Grown h root)
    (a : Nat) (n : RBTreeNode V) (ha : Reach h root a) (hn : h[a]? = some n)
    (hred : n.colour = RB_RED) : n.left = .null ∧ n.right = .null := by
  obtain ⟨r, nr, rfl, hnr, hcol, _, hl, hr⟩ := grown_flat h root hg
  rcases reach_flat h r nr hnr hl hr a ha with rfl | hla | hra
  · rw [hn] at hnr; cases hnr
    rw [hcol] at hred; cases hred
  · obtain ⟨_, m, hm, _, _, hml, hmr⟩ := hl a hla
    rw [hn] at hm; cases hm
    exact ⟨hml, hmr⟩
  · obtain ⟨_, m, hm, _, _, hml, hmr⟩ := hr a hra
    rw [hn] at hm; cases hm
    exact ⟨hml, hmr⟩

/-- Claim C15, the code at the failing input.  After `createTree` of `d` and
`add` of `b`, the call of `add` for `a`, whose place is under the red node `b`,
returns `RB_SUCCESS` with `*createdNewNode` false and leaves the heap as it is:
`b` stays a leaf.  In general, in no tree reached from `createTree` by calls of
`add` on its root does a red node have a child, red or not. -/
theorem add_under_red_dropped :
    createTree [] 'd' true = (RB_SUCCESS, [mkNode 'd' RB_BLACK .null .null], .addr 0) ∧
    add [mkNode 'd' RB_BLACK .null .null] (.addr 0) 'b' compareChars true =
      some ⟨RB_SUCCESS, twoNodes, true, 1⟩ ∧
    add twoNodes (.addr 0) 'a' compareChars true = some ⟨RB_SUCCESS, twoNodes, false, 0⟩ ∧
    twoNodes[1]? = some (mkNode 'b' RB_RED .null .null) ∧
    ∀ (V : Type) (h : Heap V) (root : Ptr), Grown h root →
      ∀ (a : Nat) (n : RBTreeNode V), Reach h root a → h[a]? = some n → n.colour = RB_RED →
        n.left = .null ∧ n.right = .null :=
  ⟨by decide, by decide, by decide, by decide,
    fun V h root hg a n ha hn hred => grown_red_leaf h root hg a n ha hn hred⟩

/-- Claim C16.  The node object `createTree` creates has a `NULL` parent link;
`add` leaves the parent link of every existing node object as it is and gives
a `NULL` parent link to the node object it creates; `setChild` and `rotate`
leave every parent link as it is (`findInsertionPoint` writes to no node
object at all); hence every node of a tree reached from `createTree` by calls
of `add` has a `NULL` parent link, the children of the root included. -/
theorem parent_never_set {V : Type} :
    (∀ (h : Heap V) (value : V),
      ∃ n, (createTree h value true).2.1 = h ++ [n] ∧ n.parent = .null) ∧
    (∀ (h : Heap V) (root : Ptr) (value : V) (comparator : RBComparator V) (allocOk : Bool)
      (res : AddResult V), add h root value comparator allocOk = some res →
      (∀ (a : Nat) (m : RBTreeNode V), h[a]? = some m →
        ∃ m2, res.heap[a]? = some m2 ∧ m2.parent = m.parent) ∧
      (∀ (a : Nat) (m2 : RBTreeNode V), h.length ≤ a → res.heap[a]? = some m2 →
        m2.parent = .null)) ∧
    (∀ (h h1 : Heap V) (node child old : Ptr) (s : RBTreeBranch),
      setChild h node child s = some (h1, old) →
      ∀ (a : Nat) (m : RBTreeNode V), h[a]? = some m →
        ∃ m1, h1[a]? = some m1 ∧ m1.parent = m.parent) ∧
    (∀ (h h2 : Heap V) (root res : Ptr) (s : RBTreeBranch),
      rotate h root s = some (h2, res) →
      ∀ (a : Nat) (m : RBTreeNode V), h[a]? = some m →
        ∃ m2, h2[a]? = some m2 ∧ m2.parent = m.parent) ∧
    (∀ (h : Heap V) (root : Ptr), Grown h root →
      ∀ (a : Nat) (n : RBTreeNode V), Reach h root a → h[a]? = some n → n.parent = .null) := by
  refine ⟨fun h value => ⟨_, rfl, rfl⟩, ?_, ?_, ?_, ?_⟩
  · intro h root value comparator allocOk res hadd
    obtain ⟨f1, f2⟩ := add_frame h root value comparator allocOk res hadd
    refine ⟨fun a m hm => ?_, fun a m2 hle hm2 => ?_⟩
    · obtain ⟨m2, hm2, _, _, hp⟩ := f1 a m hm
      exact ⟨m2, hm2, hp⟩
    · rw [f2 a m2 hle hm2]
  · intro h h1 node child old s hset a m hm
    obtain ⟨m1, hm1, _, _, hp, _⟩ := (setChild_frame h h1 node child old s hset).2 a m hm
    exact ⟨m1, hm1, hp⟩
  · intro h h2 root res s hrot a m hm
    obtain ⟨m2, hm2, _, _, hp, _⟩ := (rotate_frame h h2 root res s hrot).2 a m hm
    exact ⟨m2, hm2, hp⟩
  · intro h root hg a n ha hn
    obtain ⟨r, nr, rfl, hnr, _, hpar, hl, hr⟩ := grown_flat h root hg
    rcases reach_flat h r nr hnr hl hr a ha with rfl | hla | hra
    · rw [hn] at hnr; cases hnr; exact hpar
    · obtain ⟨_, m, hm, _, hmp, _⟩ := hl a hla
      rw [hn] at hm; cases hm; exact hmp
    · obtain ⟨_, m, hm, _, hmp, _⟩ := hr a hra
      rw [hn] at hm; cases hm; exact hmp

/-- Witness of `parent_never_set`: the nodes of the tree `twoNodes`. -/
theorem parent_never_set_witness :
    ∀ (a : Nat) (n : RBTreeNode Char), Reach twoNodes (.addr 0) a → twoNodes[a]? = some n →
      n.parent = .null :=
  (@parent_never_set Char).2.2.2.2 twoNodes (.addr 0) grown_twoNodes

/-! ## Destruction -/

/-- One level of `freeTree` on a live node whose subtrees are released without
touching it. -/
theorem freeTree_node {V : Type} (fuel : Nat) (h : Heap V) (freed freed1 freed2 : List Nat)
    (a : Nat) (n : RBTreeNode V) (hn : h[a]? = some n) (h0 : a ∉ freed)
    (hl : freeTree fuel h freed n.left = some freed1) (h1 : a ∉ freed1)
    (hr : freeTree fuel h freed1 n.right = some freed2) (h2 : a ∉ freed2) :
    freeTree (fuel + 1) h freed (.addr a) = some (freed2 ++ [a]) := by
  simp [freeTree, h0, hn, hl, h1, hr, h2]

/-- On a tree none of whose nodes has been released, `freeTree` with enough
fuel releases the nodes in postorder. -/
theorem freeTree_shape {V : Type} (h : Heap V) :
    ∀ (t : TreeShape) (p : Ptr) (freed : List Nat) (fuel : Nat), HasShape h p t →
      t.postorder.Nodup → (∀ a ∈ t.postorder, a ∉ freed) → t.height ≤ fuel →
      freeTree fuel h freed p = some (freed ++ t.postorder) := by
  intro t
  induction t with
  | leaf =>
    intro p freed fuel hs _ _ _
    simp only [HasShape] at hs
    subst hs
    cases fuel <;> simp [freeTree, TreeShape.postorder]
  | node l a r ihl ihr =>
    intro p freed fuel hs hnd hdis hfuel
    obtain ⟨rfl, n, hn, hsl, hsr⟩ := hs
    simp only [TreeShape.postorder] at hnd hdis
    simp only [TreeShape.height] at hfuel
    cases fuel with
    | zero => omega
    | succ f =>
      have hnd' := hnd
      rw [List.nodup_append] at hnd'
      obtain ⟨hndlr, _, hdisa⟩ := hnd'
      rw [List.nodup_append] at hndlr
      obtain ⟨hndl, hndr, hdislr⟩ := hndlr
      have ha_l : a ∉ l.postorder := fun hx =>
        hdisa (List.mem_append_left _ hx) (List.mem_singleton_self a)
      have ha_r : a ∉ r.postorder := fun hx =>
        hdisa (List.mem_append_right _ hx) (List.mem_singleton_self a)
      have ha_f : a ∉ freed := hdis a (by simp)
      have e1 := ihl n.left freed f hsl hndl (fun x hx => hdis x (by simp [hx])) (by omega)
      have e2 := ihr n.right (freed ++ l.postorder) f hsr hndr
        (fun x hx hmem => by
          rcases List.mem_append.mp hmem with hm | hm
          · exact hdis x (by simp [hx]) hm
          · exact hdislr hm hx) (by omega)
      rw [freeTree_node f h freed _ _ a n hn ha_f e1 (by simp [ha_f, ha_l]) e2
        (by simp [ha_f, ha_l, ha_r])]
      simp [TreeShape.postorder]

/-- The links of a node of a tree lead to subtrees whose nodes are nodes of
the tree and come before the node in postorder. -/
theorem hasShape_node {V : Type} (h : Heap V) :
    ∀ (t : TreeShape) (p : Ptr), HasShape h p t → ∀ (x : Nat) (n : RBTreeNode V),
      x ∈ t.postorder → h[x]? = some n →
      ∃ tl tr before after, HasShape h n.left tl ∧ HasShape h n.right tr ∧
        t.postorder = before ++ x :: after ∧
        (∀ c ∈ tl.postorder, c ∈ before) ∧ (∀ c ∈ tr.postorder, c ∈ before) := by
  intro t
  induction t with
  | leaf =>
    intro p _ x n hx _
    simp [TreeShape.postorder] at hx
  | node l a r ihl ihr =>
    intro p hs x n hx hn
    obtain ⟨rfl, n0, hn0, hsl, hsr⟩ := hs
    simp only [TreeShape.postorder, List.mem_append, List.mem_singleton] at hx
    rcases hx with (hxl | hxr) | rfl
    · obtain ⟨tl, tr, before, after, h1, h2, he, hb1, hb2⟩ := ihl n0.left hsl x n hxl hn
      refine ⟨tl, tr, before, after ++ r.postorder ++ [a], h1, h2, ?_, hb1, hb2⟩
      simp [TreeShape.postorder, he]
    · obtain ⟨tl, tr, before, after, h1, h2, he, hb1, hb2⟩ := ihr n0.right hsr x n hxr hn
      refine ⟨tl, tr, l.postorder ++ before, after ++ [a], h1, h2, ?_,
        fun c hc => List.mem_append_right _ (hb1 c hc),
        fun c hc => List.mem_append_right _ (hb2 c hc)⟩
      simp [TreeShape.postorder, he]
    · rw [hn0] at hn; cases hn
      refine ⟨l, r, l.postorder ++ r.postorder, [], hsl, hsr, by simp [TreeShape.postorder],
        fun c hc => List.mem_append_left _ hc, fun c hc => List.mem_append_right _ hc⟩

/-- The nodes reached from the root of a tree are the addresses of its
shape. -/
theorem reach_iff_postorder {V : Type} (h : Heap V) (t : TreeShape) (p : Ptr)
    (hs : HasShape h p t) (a : Nat) : Reach h p a ↔ a ∈ t.postorder := by
  constructor
  · intro ha
    refine reach_closed h p (fun a => a ∈ t.postorder) ?_ ?_ a ha
    · intro c hc
      subst hc
      cases t with
      | leaf => simp [HasShape] at hs
      | node l b r =>
        obtain ⟨hb, _⟩ := hs
        cases hb
        simp [TreeShape.postorder]
    · intro x n hx hn
      obtain ⟨tl, tr, before, after, h1, h2, he, hb1, hb2⟩ := hasShape_node h t p hs x n hx hn
      constructor
      · intro c hc
        rw [hc] at h1
        cases tl with
        | leaf => simp [HasShape] at h1
        | node l b r =>
          obtain ⟨hb, _⟩ := h1
          cases hb
          rw [he]
          exact List.mem_append_left _ (hb1 c (by simp [TreeShape.postorder]))
      · intro c hc
        rw [hc] at h2
        cases tr with
        | leaf => simp [HasShape] at h2
        | node l b r =>
          obtain ⟨hb, _⟩ := h2
          cases hb
          rw [he]
          exact List.mem_append_left _ (hb2 c (by simp [TreeShape.postorder]))
  · revert p
    induction t with
    | leaf => intro p _ ha; simp [TreeShape.postorder] at ha
    | node l b r ihl ihr =>
      intro p hs ha
      obtain ⟨rfl, n, hn, hsl, hsr⟩ := hs
      simp only [TreeShape.postorder, List.mem_append, List.mem_singleton] at ha
      rcases ha with (hl | hr) | rfl
      · exact reach_of_link h b n RB_LEFT hn a (ihl n.left hsl hl)
      · exact reach_of_link h b n RB_RIGHT hn a (ihr n.right hsr hr)
      · exact Reach.root a rfl

/-- The function `freeTree` never looks at a value payload: replacing every
payload leaves its result as it is. -/
theorem freeTree_mapValues {V W : Type} (g : V → W) (h : Heap V) (fuel : Nat) :
    ∀ (freed : List Nat) (p : Ptr),
      freeTree fuel (mapValues g h) freed p = freeTree fuel h freed p := by
  induction fuel with
  | zero => intro freed p; cases p <;> rfl
  | succ f ih =>
    intro freed p
    cases p with
    | null => rfl
    | addr a =>
      simp only [freeTree, mapValues, List.getElem?_map]
      cases hn : h[a]? with
      | none => simp
      | some n =>
        simp only [Option.map_some']
        have ih' := ih
        simp only [mapValues] at ih'
        rw [ih' freed n.left]
        cases freeTree f h freed n.left with
        | none => rfl
        | some freed1 =>
          simp only
          rw [ih' freed1 n.right]

/-- Claim C14.  On a finite tree (the structure under `root` has a shape whose
addresses are pairwise distinct) `freeTree` returns for every fuel that
covers the height of the tree; it releases exactly the nodes reached from
`root`, each once, the nodes of both subtrees of a node before the node
itself; its result does not depend on the value payloads; and on a `NULL`
root it releases nothing. -/
theorem freeTree_releases_tree {V : Type} (h : Heap V) (p : Ptr) (t : TreeShape)
    (hs : HasShape h p t) (hnd : t.postorder.Nodup) (fuel : Nat) (hf : t.height ≤ fuel) :
    ∃ log, freeTree fuel h [] p = some log ∧ log = t.postorder ∧ log.Nodup ∧
      (∀ a, a ∈ log ↔ Reach h p a) ∧
      (∀ (x : Nat) (n : RBTreeNode V), Reach h p x → h[x]? = some n →
        ∃ before after, log = before ++ x :: after ∧
          (∀ c, Reach h n.left c → c ∈ before) ∧ (∀ c, Reach h n.right c → c ∈ before)) ∧
      (∀ (W : Type) (g : V → W), freeTree fuel (mapValues g h) [] p = some log) ∧
      ∀ (fuel2 : Nat) (freed : List Nat), freeTree fuel2 h freed .null = some freed := by
  have hfree := freeTree_shape h t p [] fuel hs hnd (fun _ _ => List.not_mem_nil _) hf
  rw [List.nil_append] at hfree
  refine ⟨t.postorder, hfree, rfl, hnd, fun a => (reach_iff_postorder h t p hs a).symm,
    fun x n hx hn => ?_, fun W g => ?_, fun fuel2 freed => ?_⟩
  · obtain ⟨tl, tr, before, after, h1, h2, he, hb1, hb2⟩ :=
      hasShape_node h t p hs x n ((reach_iff_postorder h t p hs x).mp hx) hn
    exact ⟨before, after, he,
      fun c hc => hb1 c ((reach_iff_postorder h tl n.left h1 c).mp hc),
      fun c hc => hb2 c ((reach_iff_postorder h tr n.right h2 c).mp hc)⟩
  · rw [freeTree_mapValues g h fuel [] p, hfree]
  · cases fuel2 <;> rfl

/-- The shape of the seven-node tree of the tests. -/
theorem hasShape_alphabeticalOrdering :
    HasShape alphabeticalOrdering (.addr 3)
      (.node (.node (.node .leaf 0 .leaf) 1 (.node .leaf 2 .leaf)) 3
        (.node (.node .leaf 4 .leaf) 5 (.node .leaf 6 .leaf))) := by
  simp [HasShape, alphabeticalOrdering, mkNode]

/-- Witness of `freeTree_releases_tree`: the seven-node tree of the tests. -/
theorem freeTree_releases_tree_witness :
    ∃ log, freeTree 3 alphabeticalOrdering [] (.addr 3) = some log ∧
      log = [0, 2, 1, 4, 6, 5, 3] ∧ log.Nodup ∧
      (∀ a, a ∈ log ↔ Reach alphabeticalOrdering (.addr 3) a) ∧
      (∀ (x : Nat) (n : RBTreeNode Char), Reach alphabeticalOrdering (.addr 3) x →
        alphabeticalOrdering[x]? = some n →
        ∃ before after, log = before ++ x :: after ∧
          (∀ c, Reach alphabeticalOrdering n.left c → c ∈ before) ∧
          (∀ c, Reach alphabeticalOrdering n.right c → c ∈ before)) ∧
      (∀ (W : Type) (g : Char → W),
        freeTree 3 (mapValues g alphabeticalOrdering) [] (.addr 3) = some log) ∧
      ∀ (fuel2 : Nat) (freed : List Nat),
        freeTree fuel2 alphabeticalOrdering freed .null = some freed :=
  freeTree_releases_tree alphabeticalOrdering (.addr 3)
    (.node (.node (.node .leaf 0 .leaf) 1 (.node .leaf 2 .leaf)) 3
      (.node (.node .leaf 4 .leaf) 5 (.node .leaf 6 .leaf)))
    hasShape_alphabeticalOrdering (by decide) 3 (by decide)

end LibTree
